import Mathlib

/-!
Verification development for the `ratify` DRAT proof checker.

This file is a shallow embedding of the checker's core data structures and
algorithms, translated from the Rust sources:
  src/common/literal.rs, src/common/assignment.rs, src/common/storage.rs,
  src/forward/propagator.rs, src/forward/mutating_propagator.rs,
  src/forward.rs, src/main.rs.

Modelling conventions:
- A literal is an `Int` (the Rust `Literal` wraps a `NonZeroI32`; theorems
  that depend on nonzeroness carry an explicit `l ≠ 0` hypothesis).
- A clause handle is a `Nat` (the Rust `Clause { index: usize }`).
- The Rust `LiteralArray<T>` / `LiteralSet` (a `Vec` indexed by
  `|l|` or `|l| + max_literal`) is modelled as a total function `Int → T`.
  This is faithful because the index mapping is injective on in-range
  literals and every access is in bounds, which is exactly what the
  theorems about `litIndex` below establish.
- `ClauseArray<T>` and `View` are likewise modelled as functions `Nat → T`.
- Loops whose termination is not structural carry an explicit fuel
  parameter; running out of fuel returns the current state with an `ok`
  result.  Call sites use fuel large enough that exhaustion is not reached
  on the concrete runs evaluated here, and the invariant theorems are
  proved for every fuel value.
-/

/-- Pointwise update of an `Int`-indexed map (a `LiteralArray` store). -/
def updF {α : Type} (f : Int → α) (x : Int) (v : α) : Int → α :=
  fun y => if y = x then v else f y

/-- Pointwise update of a `Nat`-indexed map (a `ClauseArray` store). -/
def updN {α : Type} (f : Nat → α) (x : Nat) (v : α) : Nat → α :=
  fun y => if y = x then v else f y

/-- `Vec::swap_remove(i)`: replace element `i` with the last element and pop
the last element.  From the uses in `Propagator::propagate` and
`MutatingPropagator::propagate`. -/
def swapRemove {α : Type} [Inhabited α] (l : List α) (i : Nat) : List α :=
  match l.getLast? with
  | none => []
  | some x => (l.set i x).dropLast

/-- From `src/common/storage.rs`, `impl Index<Literal> for LiteralArray`:
a negative literal `l` is stored at position `-l + max_literal`, a positive
one at position `l`. -/
def litIndex (maxLiteral : Int) (l : Int) : Int :=
  if l < 0 then -l + maxLiteral else l

/-- From `src/common/storage.rs`, `ClauseStorage::literal_array`: the
backing vector is allocated with length `max_literal * 2 + 1`. -/
def literalArrayLen (maxLiteral : Int) : Int :=
  maxLiteral * 2 + 1

/-- From `src/common/assignment.rs`: the assignment is a trail (`trace`)
of literals in assignment order plus a literal-indexed boolean set
(`inner : LiteralSet`). -/
structure Assignment where
  trace : List Int
  inner : Int → Bool
  deriving Inhabited

/-- `Assignment::check` classifier from `src/common/assignment.rs`:
`Conflicts` if `-l` is set, else `Assigned` if `l` is set, else
`Unassigned`.  We inline it into the operations below. -/
inductive Check where
  | assigned
  | conflicts
  | unassigned
  deriving DecidableEq, Repr

/-- `Assignment::check` from `src/common/assignment.rs`. -/
def Assignment.check (a : Assignment) (l : Int) : Check :=
  if a.inner (-l) then .conflicts
  else if a.inner l then .assigned
  else .unassigned

/-- `Assignment::try_assign` from `src/common/assignment.rs`: on
`Assigned` succeed without change, on `Conflicts` fail without change,
on `Unassigned` push onto the trail and mark set.  The returned pair is
(result, assignment after the call). -/
def Assignment.tryAssign (a : Assignment) (l : Int) :
    Except Unit Unit × Assignment :=
  match a.check l with
  | .assigned => (.ok (), a)
  | .conflicts => (.error (), a)
  | .unassigned => (.ok (), ⟨a.trace ++ [l], updF a.inner l true⟩)

/-- `Assignment::force_assign` from `src/common/assignment.rs`: on
`Assigned` do nothing; on either other outcome (including `Conflicts`)
push and mark set. -/
def Assignment.forceAssign (a : Assignment) (l : Int) : Assignment :=
  match a.check l with
  | .assigned => a
  | _ => ⟨a.trace ++ [l], updF a.inner l true⟩

/-- `Assignment::is_true` from `src/common/assignment.rs`:
`matches!(check, Assigned)`. -/
def Assignment.isTrue (a : Assignment) (l : Int) : Bool :=
  a.check l = .assigned

/-- `Assignment::rollback_to` from `src/common/assignment.rs`: truncate
the trail at the rollback mark and clear the set bit of every literal
that was cut off.  A `Rollback` token is a trail length. -/
def Assignment.rollbackTo (a : Assignment) (n : Nat) : Assignment :=
  ⟨a.trace.take n, (a.trace.drop n).foldl (fun f l => updF f l false) a.inner⟩

/-- `Assignment::rollback_point` from `src/common/assignment.rs`. -/
def Assignment.rollbackPoint (a : Assignment) : Nat :=
  a.trace.length

/-- `Assignment::nth_lit` from `src/common/assignment.rs` (the source
indexes the trail directly; all call sites are in bounds). -/
def Assignment.nthLit (a : Assignment) (n : Nat) : Int :=
  a.trace.getD n 0

/-- `Assignment::len` from `src/common/assignment.rs`. -/
def Assignment.lenA (a : Assignment) : Nat :=
  a.trace.length

/-- Modelled from the spec: `Assignment::new` (called by both `validate`
functions in `src/forward.rs` but not present under src/) creates the
empty assignment — empty trail, no literal set. -/
def Assignment.mkEmpty : Assignment :=
  ⟨[], fun _ => false⟩

/-- Modelled from the spec: `Assignment::is_empty` (called by the
post-addition propagation guard in `src/forward.rs`) — the trail is
empty. -/
def Assignment.isEmptyA (a : Assignment) : Bool :=
  a.trace.isEmpty

/-- `ClauseStorage` from `src/common/storage.rs`: the arena of clauses.
The packed `literals`/`ranges` representation is modelled as the list of
per-clause literal slices it encodes; handle `c` denotes slice `c`. -/
structure ClauseStorage where
  clauses : List (List Int)
  deriving Inhabited

/-- `ClauseStorage::clause` from `src/common/storage.rs`. -/
def ClauseStorage.clause (db : ClauseStorage) (c : Nat) : List Int :=
  db.clauses.getD c []

/-- `ClauseStorage::number_of_clauses` from `src/common/storage.rs`. -/
def ClauseStorage.numberOfClauses (db : ClauseStorage) : Nat :=
  db.clauses.length

/-- `ClauseStorage::extract_true_unit` from `src/common/storage.rs`:
the lone literal iff the clause has length exactly 1. -/
def ClauseStorage.extractTrueUnit (db : ClauseStorage) (c : Nat) : Option Int :=
  match db.clause c with
  | [l] => some l
  | _ => none

/-- `ClauseStorage::is_empty` from `src/common/storage.rs`. -/
def ClauseStorage.clauseIsEmpty (db : ClauseStorage) (c : Nat) : Bool :=
  (db.clause c).isEmpty

/-- `ClauseStorage::first_two_literals` from `src/common/storage.rs`
(unchecked reads; the checker only calls it on clauses of length ≥ 2,
out-of-range positions are totalized with 0, which is never a
literal). -/
def ClauseStorage.firstTwoLiterals (db : ClauseStorage) (c : Nat) : Int × Int :=
  ((db.clause c).getD 0 0, (db.clause c).getD 1 0)

/-- `View` from `src/common/storage.rs`: a boolean per clause handle. -/
def View : Type := Nat → Bool

/-- `View::del` from `src/common/storage.rs`. -/
def View.del (v : View) (c : Nat) : View :=
  updN v c false

/-- `View::add` from `src/common/storage.rs`. -/
def View.addC (v : View) (c : Nat) : View :=
  updN v c true

/-- `View::is_active` from `src/common/storage.rs`. -/
def View.isActive (v : View) (c : Nat) : Bool :=
  v c

/-- `ClauseStorage::partial_view` from `src/common/storage.rs`: the first
`n` clauses are active. -/
def ClauseStorage.partialView (n : Nat) : View :=
  fun c => decide (c < n)

/-- `ClauseStorage::clauses(view)` from `src/common/storage.rs`: the
active clause handles in index order (also the behavior of
`view.clauses()` used by `Propagator::new`). -/
def ClauseStorage.activeClauses (db : ClauseStorage) (v : View) : List Nat :=
  (List.range db.numberOfClauses).filter (fun c => v.isActive c)

/-- `ClauseStorage::next_non_falsified_and_swap` from
`src/common/storage.rs`: scan positions 2.. of the clause for the first
literal that is not falsified; swap it into position `swapPos` and return
it.  Returns the (possibly) updated storage alongside.  The `swapPos`
argument is the watched slot of the falsified literal; the call in
`MutatingPropagator::propagate` passes the position of the falsified
watch per the spec (`swap_in_watch(c, pos_of(neg), new_pos)`). -/
def ClauseStorage.nextNonFalsifiedAndSwap (db : ClauseStorage) (c : Nat)
    (a : Assignment) (swapPos : Nat) : Option Int × ClauseStorage :=
  let lits := db.clause c
  match (lits.drop 2).findIdx? (fun l => !a.isTrue (-l)) with
  | none => (none, db)
  | some j =>
      let idx := j + 2
      let lit := lits.getD idx 0
      let newLits := (lits.set swapPos lit).set idx (lits.getD swapPos 0)
      (some lit, ⟨db.clauses.set c newLits⟩)

/-- `find_next_unassigned` from `src/forward/propagator.rs`: the first
literal of the clause that is not one of the two watched literals and is
not falsified. -/
def findNextUnassigned (lits : List Int) (a : Assignment) (e1 e2 : Int) :
    Option Int :=
  lits.find? (fun l => l != e1 && l != e2 && !a.isTrue (-l))

/-- `Propagator` from `src/forward/propagator.rs`: per-literal watchlists
plus the pair of literals each clause is currently watched by. -/
structure Propagator where
  watchlist : Int → List Nat
  watchedBy : Nat → Int × Int

/-- `Propagator::add_clause` from `src/forward/propagator.rs`: if the
clause has at least two literals, push it onto the watchlists of its
first two literals and record them in `watched_by`. -/
def Propagator.addClause (db : ClauseStorage) (p : Propagator) (c : Nat) :
    Propagator :=
  match db.clause c with
  | fst :: snd :: _ =>
      let w1 := updF p.watchlist fst (p.watchlist fst ++ [c])
      let w2 := updF w1 snd (w1 snd ++ [c])
      ⟨w2, updN p.watchedBy c (fst, snd)⟩
  | _ => p

/-- `Propagator::new` from `src/forward/propagator.rs`: start from empty
watchlists and `add_clause` every clause active in the view, in index
order. -/
def Propagator.mk0 (db : ClauseStorage) (v : View) : Propagator :=
  (db.activeClauses v).foldl (fun p c => p.addClause db c)
    ⟨fun _ => [], fun _ => (0, 0)⟩

/-- The body of `propagate_true_units` (identical logic in
`src/forward/propagator.rs` and `src/forward/mutating_propagator.rs`):
`try_assign` the literal of every active length-1 clause; on the first
conflict roll the assignment back to the entry point and fail. -/
def propagateTrueUnitsLoop (db : ClauseStorage) (rb : Nat) (a : Assignment) :
    List Nat → Except Unit Unit × Assignment
  | [] => (.ok (), a)
  | c :: cs =>
      match db.extractTrueUnit c with
      | some u =>
          match a.tryAssign u with
          | (.ok _, a2) => propagateTrueUnitsLoop db rb a2 cs
          | (.error _, _) => (.error (), a.rollbackTo rb)
      | none => propagateTrueUnitsLoop db rb a cs

/-- `propagate_true_units` from `src/forward/propagator.rs` /
`src/forward/mutating_propagator.rs`. -/
def propagateTrueUnits (db : ClauseStorage) (v : View) (a : Assignment) :
    Except Unit Unit × Assignment :=
  propagateTrueUnitsLoop db a.rollbackPoint a (db.activeClauses v)

/-- Result of one `propagate` call of the immutable propagator:
watchlists, watched pairs, assignment, and the `Result`. -/
structure PropRes where
  wl : Int → List Nat
  wb : Nat → Int × Int
  assg : Assignment
  res : Except Unit Unit

/-- The inner `while i < relevant_clauses.len()` loop of
`Propagator::propagate` from `src/forward/propagator.rs`.  `wl` is the
watchlist map with `wl lit` already replaced by the empty vector (the
take-and-replace of the source); `relevant` is the taken-out list; the
final `Bool` is true iff a conflict was found.  The loop body either
advances `i`, or swap-removes the migrated clause keeping `i`, so
`relevant.length - i` shrinks every iteration and the fuel given at the
call site (`relevant.length`) is never exhausted. -/
def propInner (db : ClauseStorage) (v : View) (rb : Nat) (lit : Int) :
    (Int → List Nat) → (Nat → Int × Int) → Assignment → List Nat → Nat →
    Nat → PropRes
  | wl, wb, a, relevant, _, 0 =>
      ⟨updF wl lit relevant, wb, a, .ok ()⟩
  | wl, wb, a, relevant, i, fuel + 1 =>
      if i < relevant.length then
        let c := relevant.getD i 0
        if !(v.isActive c) then
          propInner db v rb lit wl wb a relevant (i + 1) fuel
        else
          let fs := wb c
          if a.isTrue fs.1 || a.isTrue fs.2 then
            propInner db v rb lit wl wb a relevant (i + 1) fuel
          else
            let other := if fs.1 = lit then fs.2 else fs.1
            match findNextUnassigned (db.clause c) a fs.1 fs.2 with
            | some nl =>
                let wl2 := updF wl nl (wl nl ++ [c])
                let wb2 := updN wb c (nl, other)
                propInner db v rb lit wl2 wb2 a (swapRemove relevant i) i fuel
            | none =>
                match a.tryAssign other with
                | (.ok _, a2) =>
                    propInner db v rb lit wl wb a2 relevant (i + 1) fuel
                | (.error _, _) =>
                    ⟨updF wl lit relevant, wb, a.rollbackTo rb, .error ()⟩
      else ⟨updF wl lit relevant, wb, a, .ok ()⟩

/-- The outer cursor loop of `Propagator::propagate` from
`src/forward/propagator.rs`.  One unit of fuel per trail literal
processed; exhaustion returns the current state with `Ok`. -/
def propOuter (db : ClauseStorage) (v : View) (rb : Nat) :
    (Int → List Nat) → (Nat → Int × Int) → Assignment → Nat → Nat → PropRes
  | wl, wb, a, _, 0 => ⟨wl, wb, a, .ok ()⟩
  | wl, wb, a, processed, fuel + 1 =>
      if a.lenA ≤ processed then ⟨wl, wb, a, .ok ()⟩
      else
        let lit := -(a.nthLit processed)
        let relevant := wl lit
        let wl0 := updF wl lit []
        let r := propInner db v rb lit wl0 wb a relevant 0 relevant.length
        match r.res with
        | .error _ => ⟨r.wl, r.wb, r.assg, .error ()⟩
        | .ok _ => propOuter db v rb r.wl r.wb r.assg (processed + 1) fuel

/-- `Propagator::propagate` from `src/forward/propagator.rs`: take the
rollback point, then run the cursor loop from `processed = 0`. -/
def Propagator.propagate (p : Propagator) (db : ClauseStorage) (v : View)
    (a : Assignment) (fuel : Nat) : PropRes :=
  propOuter db v a.rollbackPoint p.watchlist p.watchedBy a 0 fuel

/-- `MutatingPropagator` from `src/forward/mutating_propagator.rs`: only
the watchlists; the watched literals of a clause are positions 0 and 1
of its (in-place mutated) slice in the clause storage. -/
structure MPropagator where
  watchlist : Int → List Nat

/-- `MutatingPropagator::add_clause` from
`src/forward/mutating_propagator.rs`. -/
def MPropagator.addClause (db : ClauseStorage) (p : MPropagator) (c : Nat) :
    MPropagator :=
  let lits := db.clause c
  if lits.length ≥ 2 then
    let w1 := updF p.watchlist (lits.getD 0 0) (p.watchlist (lits.getD 0 0) ++ [c])
    ⟨updF w1 (lits.getD 1 0) (w1 (lits.getD 1 0) ++ [c])⟩
  else p

/-- `MutatingPropagator::new` from `src/forward/mutating_propagator.rs`. -/
def MPropagator.mk0 (db : ClauseStorage) (v : View) : MPropagator :=
  (db.activeClauses v).foldl (fun p c => p.addClause db c) ⟨fun _ => []⟩

/-- Result of one `propagate` call of the mutating propagator: clause
storage (mutated by watch swaps), watchlists, assignment, `Result`. -/
structure MPropRes where
  db : ClauseStorage
  wl : Int → List Nat
  assg : Assignment
  res : Except Unit Unit

/-- The inner loop of `MutatingPropagator::propagate` from
`src/forward/mutating_propagator.rs`.  Differences from the immutable
propagator, as in the source: inactive clauses are lazily swap-removed;
the satisfied-check looks only at `other`; the replacement watch is
found by `next_non_falsified_and_swap`, which swaps it into the watched
slot of the falsified literal in the clause storage. -/
def mpropInner (v : View) (rb : Nat) (lit : Int) :
    ClauseStorage → (Int → List Nat) → Assignment → List Nat → Nat →
    Nat → MPropRes
  | db, wl, a, relevant, _, 0 =>
      ⟨db, updF wl lit relevant, a, .ok ()⟩
  | db, wl, a, relevant, i, fuel + 1 =>
      if i < relevant.length then
        let c := relevant.getD i 0
        if !(v.isActive c) then
          mpropInner v rb lit db wl a (swapRemove relevant i) i fuel
        else
          let fs := db.firstTwoLiterals c
          let other := if fs.1 = lit then fs.2 else fs.1
          if a.isTrue other then
            mpropInner v rb lit db wl a relevant (i + 1) fuel
          else
            match db.nextNonFalsifiedAndSwap c a (if fs.1 = lit then 0 else 1) with
            | (some nl, db2) =>
                let wl2 := updF wl nl (wl nl ++ [c])
                mpropInner v rb lit db2 wl2 a (swapRemove relevant i) i fuel
            | (none, db2) =>
                match a.tryAssign other with
                | (.ok _, a2) =>
                    mpropInner v rb lit db2 wl a2 relevant (i + 1) fuel
                | (.error _, _) =>
                    ⟨db2, updF wl lit relevant, a.rollbackTo rb, .error ()⟩
      else ⟨db, updF wl lit relevant, a, .ok ()⟩

/-- The outer cursor loop of `MutatingPropagator::propagate` from
`src/forward/mutating_propagator.rs`. -/
def mpropOuter (v : View) (rb : Nat) :
    ClauseStorage → (Int → List Nat) → Assignment → Nat → Nat → MPropRes
  | db, wl, a, _, 0 => ⟨db, wl, a, .ok ()⟩
  | db, wl, a, processed, fuel + 1 =>
      if a.lenA ≤ processed then ⟨db, wl, a, .ok ()⟩
      else
        let lit := -(a.nthLit processed)
        let relevant := wl lit
        let wl0 := updF wl lit []
        let r := mpropInner v rb lit db wl0 a relevant 0 relevant.length
        match r.res with
        | .error _ => ⟨r.db, r.wl, r.assg, .error ()⟩
        | .ok _ => mpropOuter v rb r.db r.wl r.assg (processed + 1) fuel

/-- `MutatingPropagator::propagate` from
`src/forward/mutating_propagator.rs`. -/
def MPropagator.propagate (p : MPropagator) (db : ClauseStorage) (v : View)
    (a : Assignment) (fuel : Nat) : MPropRes :=
  mpropOuter v a.rollbackPoint db p.watchlist a 0 fuel

/-- `Lemma` from `src/common.rs`: a handle-tagged proof step. -/
inductive Lemma where
  | addL (c : Nat)
  | delL (c : Nat)
  deriving DecidableEq, Repr

/-- `RawLemma` from `src/common.rs`: a proof step over literal sets.  The
`List Int` stands for the sorted element list of the Rust `BTreeSet`. -/
inductive RawLemma where
  | addR (c : List Int)
  | delR (c : List Int)
  deriving DecidableEq, Repr

/-- The error outcomes of `Checker::validate` / `MutatingChecker::validate`
in `src/forward.rs` (the `anyhow` error messages, as an enumeration). -/
inductive CheckError where
  /-- `"prepropagation conflict"` / `"assignment of true units yielded conflict"`. -/
  | initialUnitsConflict
  /-- `"prepropagation yielded conflict"` (mutating checker only). -/
  | initialPropConflict
  /-- `"early conflict detected on literal …"`. -/
  | earlyUnitConflict
  /-- `"lemma (…) does not have RUP"`. -/
  | notRup
  /-- `"no conflict detected"`. -/
  | noConflict
  deriving DecidableEq, Repr

/-- Modelled from the spec: `Propagator::delete_clause` (called by
`Checker::validate` in `src/forward.rs` but not present under src/) —
per spec §4.5 deletion only marks the clause inactive in the `View`
(done by the caller) and "the watchlists are *not* eagerly cleaned", so
the propagator state is unchanged. -/
def Propagator.deleteClause (p : Propagator) (_c : Nat) : Propagator :=
  p

/-- The assumption loop of `Checker::has_rup` from `src/forward.rs`:
`try_assign` the negation of every literal of the lemma; on an immediate
conflict roll back and report RUP; otherwise propagate, roll back, and
report RUP iff propagation conflicted. -/
def hasRupLoop (db : ClauseStorage) (v : View) (fuel : Nat) (rb : Nat)
    (p : Propagator) (a : Assignment) :
    List Int → Bool × Propagator × Assignment
  | [] =>
      let r := p.propagate db v a fuel
      ((match r.res with | .error _ => true | .ok _ => false),
        ⟨r.wl, r.wb⟩, r.assg.rollbackTo rb)
  | l :: ls =>
      match a.tryAssign (-l) with
      | (.ok _, a2) => hasRupLoop db v fuel rb p a2 ls
      | (.error _, _) => (true, p, a.rollbackTo rb)

/-- `Checker::has_rup` from `src/forward.rs`. -/
def Checker.hasRup (db : ClauseStorage) (v : View) (p : Propagator)
    (a : Assignment) (c : Nat) (fuel : Nat) : Bool × Propagator × Assignment :=
  hasRupLoop db v fuel a.rollbackPoint p a (db.clause c)

/-- Outcome of one step of the `Checker::validate` loop in
`src/forward.rs`: either continue with the new state or stop with the
function's result. -/
inductive StepRes where
  | cont (v : View) (p : Propagator) (a : Assignment)
  | stop (r : Except CheckError Unit)

/-- The trailing "propagate after a clause has been added" block of the
`Lemma::Add` arm of `Checker::validate` in `src/forward.rs`.  Note the
source discards the propagation result (`let _ = …`). -/
def Checker.postAdd (db : ClauseStorage) (fuel : Nat) (v : View)
    (p : Propagator) (a : Assignment) : StepRes :=
  if !a.isEmptyA then
    let r := p.propagate db v a fuel
    .cont v ⟨r.wl, r.wb⟩ r.assg
  else .cont v p a

/-- One iteration of the proof loop of `Checker::validate` from
`src/forward.rs`.  In the addition path the source marks the clause
active (`db_view.add`) *before* testing `!db_view.is_active(clause)`,
so the guarded `propagator.add_clause` is never reached; the dead guard
is embedded literally. -/
def Checker.step (db : ClauseStorage) (ignoreDeletions : Bool) (fuel : Nat)
    (v : View) (p : Propagator) (a : Assignment) : Lemma → StepRes
  | .delL c =>
      if !ignoreDeletions then .cont (v.del c) (p.deleteClause c) a
      else .cont v p a
  | .addL c =>
      match Checker.hasRup db v p a c fuel with
      | (false, _, _) => .stop (.error .notRup)
      | (true, p2, a2) =>
          let v2 := v.addC c
          if db.clauseIsEmpty c then .stop (.ok ())
          else
            match db.extractTrueUnit c with
            | some u =>
                match a2.tryAssign u with
                | (.error _, _) => .stop (.error .earlyUnitConflict)
                | (.ok _, a3) => Checker.postAdd db fuel v2 p2 a3
            | none =>
                let p3 := if !(v2.isActive c) then p2.addClause db c else p2
                Checker.postAdd db fuel v2 p3 a2

/-- The proof loop of `Checker::validate` from `src/forward.rs`; falling
off the end of the script is `"no conflict detected"`. -/
def Checker.loop (db : ClauseStorage) (ignoreDeletions : Bool) (fuel : Nat) :
    View → Propagator → Assignment → List Lemma → Except CheckError Unit
  | _, _, _, [] => .error .noConflict
  | v, p, a, lm :: rest =>
      match Checker.step db ignoreDeletions fuel v p a lm with
      | .stop r => r
      | .cont v2 p2 a2 => Checker.loop db ignoreDeletions fuel v2 p2 a2 rest

/-- `Checker::validate` from `src/forward.rs` (the immutable checker):
build the propagator from the active view, assign the true units, then
run the proof loop.  (This checker runs no initial full propagation.) -/
def Checker.validate (db : ClauseStorage) (v : View) (proof : List Lemma)
    (ignoreDeletions : Bool) (fuel : Nat) : Except CheckError Unit :=
  let p := Propagator.mk0 db v
  let a := Assignment.mkEmpty
  match propagateTrueUnits db v a with
  | (.error _, _) => .error .initialUnitsConflict
  | (.ok _, a2) => Checker.loop db ignoreDeletions fuel v p a2 proof

/-- The assumption loop of `MutatingChecker::has_rup` from
`src/forward.rs`. -/
def hasRupMLoop (v : View) (fuel : Nat) (rb : Nat) (db : ClauseStorage)
    (p : MPropagator) (a : Assignment) :
    List Int → Bool × ClauseStorage × MPropagator × Assignment
  | [] =>
      let r := p.propagate db v a fuel
      ((match r.res with | .error _ => true | .ok _ => false),
        r.db, ⟨r.wl⟩, r.assg.rollbackTo rb)
  | l :: ls =>
      match a.tryAssign (-l) with
      | (.ok _, a2) => hasRupMLoop v fuel rb db p a2 ls
      | (.error _, _) => (true, db, p, a.rollbackTo rb)

/-- `MutatingChecker::has_rup` from `src/forward.rs`. -/
def MChecker.hasRup (db : ClauseStorage) (v : View) (p : MPropagator)
    (a : Assignment) (c : Nat) (fuel : Nat) :
    Bool × ClauseStorage × MPropagator × Assignment :=
  hasRupMLoop v fuel a.rollbackPoint db p a (db.clause c)

/-- Outcome of one step of the `MutatingChecker::validate` loop in
`src/forward.rs`. -/
inductive MStepRes where
  | cont (db : ClauseStorage) (v : View) (p : MPropagator) (a : Assignment)
  | stop (r : Except CheckError Unit)

/-- The trailing "propagate after a clause has been added" block of the
`Lemma::Add` arm of `MutatingChecker::validate` in `src/forward.rs`:
unlike the immutable checker, a conflict here is `"early conflict
detected"` and the whole validation returns `Ok`. -/
def MChecker.postAdd (fuel : Nat) (db : ClauseStorage) (v : View)
    (p : MPropagator) (a : Assignment) : MStepRes :=
  if !a.isEmptyA then
    let r := p.propagate db v a fuel
    match r.res with
    | .error _ => .stop (.ok ())
    | .ok _ => .cont r.db v ⟨r.wl⟩ r.assg
  else .cont db v p a

/-- One iteration of the proof loop of `MutatingChecker::validate` from
`src/forward.rs`.  The deletion arm calls
`propagator.delete_clause(&clause_db, clause)`, which is not present
under src/; modelled from the spec (§4.5/§4.6): mark the clause inactive
in the view, watchlists untouched.  Likewise the activation of a
RUP-verified clause in the view is modelled from the spec ("Mark `c`
active in view"), which the mutating propagator's `is_active` pruning
relies on. -/
def MChecker.step (fuel : Nat) (db : ClauseStorage) (v : View)
    (p : MPropagator) (a : Assignment) : Lemma → MStepRes
  | .delL c => .cont db (v.del c) p a
  | .addL c =>
      match MChecker.hasRup db v p a c fuel with
      | (false, _, _, _) => .stop (.error .notRup)
      | (true, db2, p2, a2) =>
          let v2 := v.addC c
          if db2.clauseIsEmpty c then .stop (.ok ())
          else
            match db2.extractTrueUnit c with
            | some u =>
                match a2.tryAssign u with
                | (.error _, _) => .stop (.error .earlyUnitConflict)
                | (.ok _, a3) => MChecker.postAdd fuel db2 v2 p2 a3
            | none =>
                MChecker.postAdd fuel db2 v2 (p2.addClause db2 c) a2

/-- The proof loop of `MutatingChecker::validate` from `src/forward.rs`. -/
def MChecker.loop (fuel : Nat) :
    ClauseStorage → View → MPropagator → Assignment → List Lemma →
    Except CheckError Unit
  | _, _, _, _, [] => .error .noConflict
  | db, v, p, a, lm :: rest =>
      match MChecker.step fuel db v p a lm with
      | .stop r => r
      | .cont db2 v2 p2 a2 => MChecker.loop fuel db2 v2 p2 a2 rest

/-- `MutatingChecker::validate` from `src/forward.rs`: build the
propagator, assign true units, run one initial propagation ("preprop"),
then the proof loop. -/
def MChecker.validate (db : ClauseStorage) (v : View) (proof : List Lemma)
    (fuel : Nat) : Except CheckError Unit :=
  let p := MPropagator.mk0 db v
  let a := Assignment.mkEmpty
  match propagateTrueUnits db v a with
  | (.error _, _) => .error .initialUnitsConflict
  | (.ok _, a2) =>
      let r := p.propagate db v a2 fuel
      match r.res with
      | .error _ => .error .initialPropConflict
      | .ok _ => MChecker.loop fuel r.db v ⟨r.wl⟩ r.assg proof

/-- `Builder` from `src/common/storage.rs`: the content-addressed clause
arena builder.  The `FxHashMap<BTreeSet<Literal>, Clause>` keyed by
content is modelled by looking the content up in the insertion list (the
handle of a content is its first-insertion index). -/
structure Builder where
  clauses : List (List Int)
  deriving Inhabited

/-- `Builder::add_clause` from `src/common/storage.rs`: the existing
handle if the content is already present, else append and return the
fresh handle. -/
def Builder.addClause (b : Builder) (c : List Int) : Builder × Nat :=
  match b.clauses.findIdx? (fun d => d == c) with
  | some i => (b, i)
  | none => (⟨b.clauses ++ [c]⟩, b.clauses.length)

/-- `Builder::finish` from `src/common/storage.rs` (the computed
`max_literal` only sizes the literal arrays, which are modelled as total
functions). -/
def Builder.finish (b : Builder) : ClauseStorage :=
  ⟨b.clauses⟩

/-- The state of `preprocess` from `src/main.rs`: the builder plus the
`seen : FxHashMap<Clause, i32>` multiplicity counter. -/
structure PreSt where
  builder : Builder
  seen : Nat → Int

/-- One step of `preprocess` from `src/main.rs`: additions of a clause
with positive count are elided (the count still goes up); deletions of a
clause with count < 1 are elided; a deletion that takes the count to 0
is kept, other deletions are elided. -/
def preprocessStep (st : PreSt) : RawLemma → PreSt × Option Lemma
  | .addR c =>
      let bh := st.builder.addClause c
      let e := st.seen bh.2
      if e > 0 then (⟨bh.1, updN st.seen bh.2 (e + 1)⟩, none)
      else (⟨bh.1, updN st.seen bh.2 (e + 1)⟩, some (.addL bh.2))
  | .delR c =>
      let bh := st.builder.addClause c
      let e := st.seen bh.2
      if e < 1 then (⟨bh.1, st.seen⟩, none)
      else if e - 1 = 0 then (⟨bh.1, updN st.seen bh.2 (e - 1)⟩, some (.delL bh.2))
      else (⟨bh.1, updN st.seen bh.2 (e - 1)⟩, none)

/-- One clause of the formula pass of `preprocess` from `src/main.rs`:
the clause is added to the builder and its count incremented. -/
def preInitStep (st : PreSt) (c : List Int) : PreSt :=
  let bh := st.builder.addClause c
  ⟨bh.1, updN st.seen bh.2 (st.seen bh.2 + 1)⟩

/-- The formula pass of `preprocess` from `src/main.rs`. -/
def preprocessInit (formula : List (List Int)) : PreSt :=
  formula.foldl preInitStep ⟨⟨[]⟩, fun _ => 0⟩

/-- The `filter_map` pass of `preprocess` from `src/main.rs`. -/
def preprocessLoop : PreSt → List RawLemma → PreSt × List Lemma
  | st, [] => (st, [])
  | st, rl :: rest =>
      let so := preprocessStep st rl
      let rec2 := preprocessLoop so.1 rest
      (rec2.1, so.2.toList ++ rec2.2)

/-- `preprocess` from `src/main.rs`. -/
def preprocess (formula : List (List Int)) (proof : List RawLemma) :
    PreSt × List Lemma :=
  preprocessLoop (preprocessInit formula) proof

/-- The observable outcome of `main` from `src/main.rs` as a function of
the validator result: on `Ok` print `s VERIFIED` to stdout and exit 0;
on `Err` the `?` propagates the error out of `main` (anyhow prints it to
stderr), nothing is printed to stdout, and the exit code is nonzero. -/
def mainOut (r : Except CheckError Unit) : Nat × List String :=
  match r with
  | .ok _ => (0, ["s VERIFIED"])
  | .error _ => (1, [])

/-! ### Statement apparatus (specification-side definitions) -/

/-- A sequence of `try_assign` calls, as states (results discarded). -/
def applyTryAssigns (a : Assignment) (ls : List Int) : Assignment :=
  ls.foldl (fun b l => (b.tryAssign l).2) a

/-- `b` is obtainable from `a` by `try_assign` calls: the trail grew by
`extra`, each pushed literal was unassigned in `a`, and the literal set
grew by exactly `extra`. -/
def Reaches (a b : Assignment) : Prop :=
  ∃ extra : List Int,
    b.trace = a.trace ++ extra
    ∧ (∀ l ∈ extra, a.inner l = false)
    ∧ (∀ m : Int, b.inner m = (a.inner m || decide (m ∈ extra)))

/-- The assignment consistency invariant of spec §8.2: no literal set
together with its negation; a literal is set iff it is on the trail; the
trail has no duplicates. -/
def AssignInv (a : Assignment) : Prop :=
  (∀ l : Int, ¬(a.inner l = true ∧ a.inner (-l) = true))
  ∧ (∀ l : Int, a.inner l = true ↔ l ∈ a.trace)
  ∧ a.trace.Nodup

/-- A propagator operation of claim C3: mid-checking clause addition
(`add_clause` plus activation, as the checker driver performs it),
clause deletion (deactivation; watchlists untouched), or a `propagate`
call under an arbitrary assignment. -/
inductive POp where
  | addOp (c : Nat)
  | delOp (c : Nat)
  | propOp (a : Assignment) (fuel : Nat)

/-- Propagator-plus-view state evolved by `POp`s. -/
structure PState where
  prop : Propagator
  view : View

/-- Apply one propagator operation. -/
def applyPOp (db : ClauseStorage) (s : PState) : POp → PState
  | .addOp c => ⟨s.prop.addClause db c, s.view.addC c⟩
  | .delOp c => ⟨s.prop.deleteClause c, s.view.del c⟩
  | .propOp a fuel =>
      let r := s.prop.propagate db s.view a fuel
      ⟨⟨r.wl, r.wb⟩, s.view⟩

/-- Initialization from the active set (`Propagator::new`). -/
def initPState (db : ClauseStorage) (v0 : View) : PState :=
  ⟨Propagator.mk0 db v0, v0⟩

/-- Apply a sequence of propagator operations. -/
def applyPOps (db : ClauseStorage) (s : PState) (ops : List POp) : PState :=
  ops.foldl (applyPOp db) s

/-- The clauses added by a sequence of operations. -/
def addsOf : List POp → List Nat
  | [] => []
  | .addOp c :: rest => c :: addsOf rest
  | _ :: rest => addsOf rest

/-- The watcher invariant of spec §3 for the clauses in `added`: a
watchable added clause occurs exactly once in the watchlist of each of
its two (distinct) watched literals and nowhere else; any other clause
occurs in no watchlist. -/
def WatchInv (db : ClauseStorage) (added : List Nat) (wl : Int → List Nat)
    (wb : Nat → Int × Int) : Prop :=
  ∀ c : Nat,
    ((c ∈ added ∧ 2 ≤ (db.clause c).length) →
      ((wb c).1 ≠ (wb c).2
        ∧ (wl (wb c).1).count c = 1
        ∧ (wl (wb c).2).count c = 1
        ∧ (∀ l : Int, l ≠ (wb c).1 → l ≠ (wb c).2 → (wl l).count c = 0)))
    ∧ (¬(c ∈ added ∧ 2 ≤ (db.clause c).length) → ∀ l : Int, (wl l).count c = 0)

/-- Replay of an emitted proof script over the active set: `Add` marks
present, `Del` marks absent. -/
def applyLemma (s : Nat → Bool) : Lemma → (Nat → Bool)
  | .addL h => updN s h true
  | .delL h => updN s h false

/-- The initially present handles: exactly those the formula pass of
`preprocess` allocated. -/
def initialActiveF (formula : List (List Int)) : Nat → Bool :=
  fun h => decide (h < (preprocessInit formula).builder.clauses.length)

/-- The set of handles present after preprocessing the raw prefix `pre`:
the formula handles, updated by the emitted (kept) steps. -/
def activePre (formula : List (List Int)) (pre : List RawLemma) : Nat → Bool :=
  ((preprocessLoop (preprocessInit formula) pre).2).foldl applyLemma
    (initialActiveF formula)

/-- Invariant of the `preprocess` fold relating the `seen` counter to
the present set (`active`) and to the raw history (`hist`). -/
structure PreInv (formula : List (List Int)) (st : PreSt) (active : Nat → Bool)
    (hist : List RawLemma) : Prop where
  nonneg : ∀ h, 0 ≤ st.seen h
  act_iff : ∀ h, 0 < st.seen h ↔ active h = true
  act_lt : ∀ h, active h = true → h < st.builder.clauses.length
  fresh_zero : ∀ h, st.builder.clauses.length ≤ h → st.seen h = 0
  content_added : ∀ h, 0 < st.seen h →
    st.builder.clauses.getD h [] ∈ formula
    ∨ RawLemma.addR (st.builder.clauses.getD h []) ∈ hist

/-! ### Concrete example runs -/

/-- Formula of the C1/C10 failing input: `{1 2 3}, {1 2 -3}, {1 -2 3},
{1 -2 -3}` (each clause as its sorted literal list). -/
def exFormula : List (List Int) := [[1, 2, 3], [-3, 1, 2], [-2, 1, 3], [-3, -2, 1]]

/-- Raw proof of the C1/C10 failing input: add `{1 2}`, then add `{1}`.
`{1 2}` is RUP; `{1}` is RUP only through the added clause `{1 2}`. -/
def exProof : List RawLemma := [.addR [1, 2], .addR [1]]

/-- The preprocessed clause database of the example (handles 0..3 the
formula, 4 = `{1 2}`, 5 = `{1}`). -/
def exDb : ClauseStorage := (preprocess exFormula exProof).1.builder.finish

/-- The initial view of the example: the 4 formula clauses active. -/
def exView : View := ClauseStorage.partialView 4

/-- The preprocessed proof script of the example. -/
def exScript : List Lemma := (preprocess exFormula exProof).2

/-- The assignment after the immutable checker's startup (true-unit
scan) on the example. -/
def exA0 : Assignment := (propagateTrueUnits exDb exView Assignment.mkEmpty).2

/-- The immutable checker's state after processing the first proof step
(`Add` of clause 4 = `{1 2}`) of the example. -/
def exStep1 : StepRes :=
  Checker.step exDb false 100 exView (Propagator.mk0 exDb exView) exA0 (.addL 4)

/-- View component of a continuing checker step (observation helper). -/
def StepRes.getView : StepRes → View
  | .cont v _ _ => v
  | .stop _ => fun _ => false

/-- Propagator component of a continuing checker step (observation
helper). -/
def StepRes.getProp : StepRes → Propagator
  | .cont _ p _ => p
  | .stop _ => ⟨fun _ => [], fun _ => (0, 0)⟩

/-- Database of the C2 counterexample: `{1 2}, {-2 3}, {-2 -3}`. -/
def exDb2 : ClauseStorage := ⟨[[1, 2], [-2, 3], [-2, -3]]⟩

/-- View of the C2 counterexample: everything active. -/
def exView2 : View := ClauseStorage.partialView 3

/-- Entry assignment of the C2 counterexample: `-1` assigned. -/
def exA2 : Assignment := ⟨[-1], updF (fun _ => false) (-1) true⟩

/-- Propagator of the C2 counterexample. -/
def exProp2 : Propagator := Propagator.mk0 exDb2 exView2

/-- Database of the C3 counterexample: the single clause `{1 2}`. -/
def exDb3 : ClauseStorage := ⟨[[1, 2]]⟩

/-- C3 counterexample state: initialize with clause 0 active, delete
clause 0, then re-add it (the checker's re-add path after a deletion). -/
def exPState3 : PState :=
  applyPOps exDb3 (initPState exDb3 (ClauseStorage.partialView 1))
    [.delOp 0, .addOp 0]

/-! ### Basic lemmas -/

theorem updF_apply {α : Type} (f : Int → α) (x : Int) (v : α) (y : Int) :
    updF f x v y = if y = x then v else f y := rfl

theorem updN_apply {α : Type} (f : Nat → α) (x : Nat) (v : α) (y : Nat) :
    updN f x v y = if y = x then v else f y := rfl

theorem foldRemove_apply (ls : List Int) (f : Int → Bool) (m : Int) :
    (ls.foldl (fun g l => updF g l false) f) m = if m ∈ ls then false else f m := by
  induction ls generalizing f with
  | nil => simp
  | cons l ls ih =>
      simp only [List.foldl_cons, ih, List.mem_cons, updF_apply]
      by_cases hml : m = l <;> by_cases hms : m ∈ ls <;> simp [hml, hms]

theorem reaches_refl (a : Assignment) : Reaches a a :=
  ⟨[], by simp, by simp, by simp⟩

theorem reaches_tryAssign (a b : Assignment) (l : Int) (h : Reaches a b) :
    Reaches a (b.tryAssign l).2 := by
  obtain ⟨e, ht, hu, hi⟩ := h
  unfold Assignment.tryAssign Assignment.check
  by_cases h1 : b.inner (-l)
  · exact ⟨e, by simp [h1, ht], hu, by simp [h1, hi]⟩
  · by_cases h2 : b.inner l
    · exact ⟨e, by simp [h1, h2, ht], hu, by simp [h1, h2, hi]⟩
    · rw [Bool.not_eq_true] at h1 h2
      refine ⟨e ++ [l], by simp [h1, h2, ht], ?_, ?_⟩
      · intro m hm
        rcases List.mem_append.mp hm with hm | hm
        · exact hu m hm
        · have hml : m = l := by simpa using hm
          subst hml
          have := hi m
          rw [h2] at this
          rcases Bool.or_eq_false_iff.mp this.symm with ⟨ha, _⟩
          exact ha
      · intro m
        simp only [h1, h2, if_false, Bool.false_eq_true, updF_apply]
        by_cases hml : m = l
        · subst hml
          have := hi m
          rw [h2] at this
          rcases Bool.or_eq_false_iff.mp this.symm with ⟨ha, _⟩
          simp [ha]
        · simp only [hml, if_false, hi m, List.mem_append]
          by_cases hme : m ∈ e <;> simp [hme, hml]

theorem reaches_applyTryAssigns (a b : Assignment) (ls : List Int)
    (h : Reaches a b) : Reaches a (applyTryAssigns b ls) := by
  induction ls generalizing b with
  | nil => exact h
  | cons l ls ih =>
      have : applyTryAssigns b (l :: ls) = applyTryAssigns (b.tryAssign l).2 ls := by
        simp [applyTryAssigns]
      rw [this]
      exact ih _ (reaches_tryAssign a b l h)

theorem reaches_rollback (a b : Assignment) (h : Reaches a b) :
    b.rollbackTo a.trace.length = a := by
  obtain ⟨e, ht, hu, hi⟩ := h
  have h1 : b.trace.take a.trace.length = a.trace := by
    rw [ht]; exact List.take_left a.trace e
  have h2 : b.trace.drop a.trace.length = e := by
    rw [ht]; exact List.drop_left a.trace e
  have hinner : ∀ m,
      ((b.trace.drop a.trace.length).foldl (fun g l => updF g l false) b.inner) m
        = a.inner m := by
    intro m
    rw [h2, foldRemove_apply]
    by_cases hm : m ∈ e
    · rw [if_pos hm, hu m hm]
    · rw [if_neg hm, hi m]
      simp [hm]
  unfold Assignment.rollbackTo
  obtain ⟨t, f⟩ := a
  rw [Assignment.mk.injEq]
  exact ⟨h1, funext hinner⟩

theorem reaches_trace_grows (a b : Assignment) (h : Reaches a b) :
    ∃ t, b.trace = a.trace ++ t := by
  obtain ⟨e, ht, _, _⟩ := h
  exact ⟨e, ht⟩

/-! ### Claim C6 -/

/-- C6: For every assignment `A`, taking `r = A.rollback_point()`, then
applying any finite sequence of `try_assign` calls, then
`rollback_to(r)`, restores exactly `A` (trail and literal set). -/
theorem C6_rollback_restores_snapshot (a : Assignment) (ls : List Int) :
    (applyTryAssigns a ls).rollbackTo a.rollbackPoint = a :=
  reaches_rollback a _ (reaches_applyTryAssigns a a ls (reaches_refl a))

/-! ### Claim C5 -/

/-- C5: `try_assign(l)` conflicts exactly when `-l` is set, and then
leaves the assignment unchanged; if `l` is already set it succeeds
without change; otherwise it pushes `l`, marks it set, and succeeds. -/
theorem C5_try_assign_spec (a : Assignment) (l : Int) :
    ((a.tryAssign l).1 = .error () ↔ a.inner (-l) = true)
    ∧ (a.inner (-l) = true → a.tryAssign l = (.error (), a))
    ∧ (a.inner (-l) = false → a.inner l = true → a.tryAssign l = (.ok (), a))
    ∧ (a.inner (-l) = false → a.inner l = false →
        a.tryAssign l = (.ok (), ⟨a.trace ++ [l], updF a.inner l true⟩)) := by
  unfold Assignment.tryAssign Assignment.check
  by_cases h1 : a.inner (-l) <;> by_cases h2 : a.inner l <;> simp [h1, h2]

/-- Witness for C5 at a concrete input: assigning 1 to the empty
assignment pushes it. -/
theorem C5_try_assign_spec_witness :
    Assignment.mkEmpty.tryAssign 1
      = (.ok (), ⟨Assignment.mkEmpty.trace ++ [1], updF Assignment.mkEmpty.inner 1 true⟩) :=
  (C5_try_assign_spec Assignment.mkEmpty 1).2.2.2 rfl rfl

/-! ### Claim C7 -/

/-- C7 counterexample: from the consistent assignment with `1` set,
`force_assign(-1)` falls into the catch-all arm (the `Conflicts` case is
not excluded) and leaves both `set[1]` and `set[-1]` true, violating the
pairwise-consistency invariant the claim asserts is preserved. -/
theorem C7_force_assign_conflict_cex :
    ((Assignment.mkEmpty.tryAssign 1).2.forceAssign (-1)).inner 1 = true
    ∧ ((Assignment.mkEmpty.tryAssign 1).2.forceAssign (-1)).inner (-1) = true
    ∧ ¬AssignInv ((Assignment.mkEmpty.tryAssign 1).2.forceAssign (-1)) := by
  refine ⟨rfl, rfl, fun h => h.1 1 ⟨rfl, rfl⟩⟩

theorem forceAssign_eq_tryAssign (a : Assignment) (l : Int)
    (h : a.inner (-l) = false) : a.forceAssign l = (a.tryAssign l).2 := by
  unfold Assignment.forceAssign Assignment.tryAssign Assignment.check
  by_cases h2 : a.inner l <;> simp [h, h2]

/-- C7 amended: `try_assign` (of a nonzero literal) and `rollback_to`
preserve the consistency invariant; `force_assign` preserves it provided
the literal's negation is not currently set (the counterexample shows it
breaks the invariant otherwise). -/
theorem C7_assignment_invariant_preserved (a : Assignment) (l : Int) (n : Nat)
    (hInv : AssignInv a) (hl : l ≠ 0) :
    AssignInv (a.tryAssign l).2
    ∧ (a.inner (-l) = false → AssignInv (a.forceAssign l))
    ∧ AssignInv (a.rollbackTo n) := by
  obtain ⟨hPair, hIff, hNd⟩ := hInv
  have hTry : AssignInv (a.tryAssign l).2 := by
    unfold Assignment.tryAssign Assignment.check
    by_cases h1 : a.inner (-l)
    · exact ⟨by simpa [h1] using hPair, by simpa [h1] using hIff, by simpa [h1] using hNd⟩
    · by_cases h2 : a.inner l
      · exact ⟨by simpa [h1, h2] using hPair,
          by simpa [h1, h2] using hIff, by simpa [h1, h2] using hNd⟩
      · rw [Bool.not_eq_true] at h1 h2
        simp only [h1, h2, Bool.false_eq_true, if_false]
        refine ⟨?_, ?_, ?_⟩
        · intro m ⟨p1, p2⟩
          dsimp only at p1 p2
          rw [updF_apply] at p1 p2
          by_cases hml : m = l
          · subst hml
            have hne : ¬(-m = m) := by omega
            rw [if_neg hne] at p2
            rw [p2] at h1
            cases h1
          · by_cases hmn : -m = l
            · rw [if_neg hml] at p1
              have hmeq : m = -l := by omega
              rw [hmeq] at p1
              rw [p1] at h1
              cases h1
            · rw [if_neg hml] at p1
              rw [if_neg hmn] at p2
              exact hPair m ⟨p1, p2⟩
        · intro m
          dsimp only
          rw [updF_apply]
          by_cases hml : m = l
          · subst hml
            simp
          · rw [if_neg hml, hIff m]
            simp [hml]
        · have hnotmem : l ∉ a.trace := by
            intro hmem
            rw [← hIff l] at hmem
            rw [hmem] at h2
            cases h2
          simp [List.nodup_append, hNd, hnotmem]
  refine ⟨hTry, fun hF => ?_, ?_⟩
  · rw [forceAssign_eq_tryAssign a l hF]
    exact hTry
  · unfold Assignment.rollbackTo
    have hsplit : a.trace.take n ++ a.trace.drop n = a.trace := List.take_append_drop n a.trace
    have hdisj : ∀ m, m ∈ a.trace.take n → m ∈ a.trace.drop n → False := by
      intro m hmt hmd
      have : a.trace.Nodup := hNd
      rw [← hsplit] at this
      exact (List.disjoint_of_nodup_append this) hmt hmd
    refine ⟨?_, ?_, ?_⟩
    · intro m ⟨p1, p2⟩
      dsimp only at p1 p2
      rw [foldRemove_apply] at p1 p2
      by_cases q1 : m ∈ a.trace.drop n
      · rw [if_pos q1] at p1; cases p1
      · by_cases q2 : -m ∈ a.trace.drop n
        · rw [if_pos q2] at p2; cases p2
        · rw [if_neg q1] at p1
          rw [if_neg q2] at p2
          exact hPair m ⟨p1, p2⟩
    · intro m
      dsimp only
      rw [foldRemove_apply]
      by_cases q : m ∈ a.trace.drop n
      · rw [if_pos q]
        constructor
        · intro h; cases h
        · intro hmem
          exact absurd (hdisj m hmem q) (fun h => h)
      · rw [if_neg q, hIff m]
        constructor
        · intro hmem
          rw [← hsplit] at hmem
          rcases List.mem_append.mp hmem with h | h
          · exact h
          · exact absurd h q
        · intro hmem
          rw [← hsplit]
          exact List.mem_append.mpr (.inl hmem)
    · exact (List.take_sublist n a.trace).nodup hNd

/-- Witness for C7 at a concrete input: the empty assignment satisfies
the invariant, and `try_assign 1` preserves it. -/
theorem C7_assignment_invariant_preserved_witness :
    AssignInv Assignment.mkEmpty
    ∧ AssignInv ((Assignment.mkEmpty.tryAssign 1).2) := by
  have h0 : AssignInv Assignment.mkEmpty :=
    ⟨fun l h => by simp [Assignment.mkEmpty] at h,
     fun l => by simp [Assignment.mkEmpty],
     by simp [Assignment.mkEmpty]⟩
  exact ⟨h0, (C7_assignment_invariant_preserved Assignment.mkEmpty 1 0 h0 (by decide)).1⟩

/-! ### Claim C8 -/

/-- C8: the literal-array index maps a positive in-range literal `l` to
`|l|` and a negative one to `|l| + max_literal`; every such position is
within the allocated length `2*max_literal + 1`, and distinct in-range
literals get distinct positions (so the unchecked accesses are in
bounds and the array behaves as a map on literals). -/
theorem C8_literal_index_bounds_injective (m l l2 : Int)
    (h1 : 1 ≤ |l|) (h2 : |l| ≤ m) (h3 : 1 ≤ |l2|) (h4 : |l2| ≤ m) :
    (0 < l → litIndex m l = |l|)
    ∧ (l < 0 → litIndex m l = |l| + m)
    ∧ 0 ≤ litIndex m l ∧ litIndex m l < literalArrayLen m
    ∧ (l ≠ l2 → litIndex m l ≠ litIndex m l2) := by
  unfold litIndex literalArrayLen
  rcases abs_cases l with ⟨e1, s1⟩ | ⟨e1, s1⟩ <;>
    rcases abs_cases l2 with ⟨e2, s2⟩ | ⟨e2, s2⟩ <;>
      rw [e1] at h1 h2 ⊢ <;> rw [e2] at h3 h4 <;> split_ifs <;>
        exact ⟨fun hp => by omega, fun hn => by omega, by omega, by omega,
          fun hne hEq => by omega⟩

/-- Witness for C8 at a concrete input: literal -2 with max_literal 3
lands at position 5 = 2 + 3, in bounds, distinct from literal 2. -/
theorem C8_literal_index_witness :
    0 ≤ litIndex 3 (-2) ∧ litIndex 3 (-2) < literalArrayLen 3
    ∧ litIndex 3 (-2) ≠ litIndex 3 2 := by
  have h := C8_literal_index_bounds_injective 3 (-2) 2
    (by decide) (by decide) (by decide) (by decide)
  exact ⟨h.2.2.1, h.2.2.2.1, h.2.2.2.2 (by decide)⟩

/-! ### Claim C9 -/

/-- C9 amended: consuming the whole script without success yields the
no-conflict error and a nonzero exit code; stdout ends with
`s VERIFIED` on a verified refutation; but on every other outcome
nothing at all is printed to stdout (the error goes to stderr), so
stdout does not end with an `s NOT VERIFIED` line. -/
theorem C9_exit_codes_and_stdout (e : CheckError) (db : ClauseStorage)
    (igd : Bool) (fuel : Nat) (v : View) (p : Propagator) (a : Assignment) :
    Checker.loop db igd fuel v p a [] = .error .noConflict
    ∧ mainOut (.ok ()) = (0, ["s VERIFIED"])
    ∧ (mainOut (.ok ())).2.getLast? = some "s VERIFIED"
    ∧ (mainOut (.error e)).1 ≠ 0
    ∧ (mainOut (.error e)).2 = [] :=
  ⟨rfl, rfl, rfl, Nat.one_ne_zero, rfl⟩

/-- C9 counterexample: a run that ends without conflict exits nonzero
(as claimed) but prints nothing to stdout, so stdout does not end with
the claimed `s NOT VERIFIED` line. -/
theorem C9_missing_not_verified_line_cex :
    Checker.validate ⟨[[1, 2]]⟩ (ClauseStorage.partialView 1) [] false 100
        = .error .noConflict
    ∧ mainOut (Checker.validate ⟨[[1, 2]]⟩ (ClauseStorage.partialView 1) [] false 100)
        = (1, [])
    ∧ (mainOut (Checker.validate ⟨[[1, 2]]⟩ (ClauseStorage.partialView 1) [] false 100)).2.getLast?
        ≠ some "s NOT VERIFIED" := by
  refine ⟨rfl, rfl, by decide⟩

/-! ### Claim C2 -/

theorem propInner_assignment (db : ClauseStorage) (v : View) (lit : Int)
    (a0 : Assignment) (fuel : Nat) :
    ∀ (wl : Int → List Nat) (wb : Nat → Int × Int) (a : Assignment)
      (relevant : List Nat) (i : Nat), Reaches a0 a →
      ((propInner db v a0.trace.length lit wl wb a relevant i fuel).res = .ok () →
        Reaches a0 (propInner db v a0.trace.length lit wl wb a relevant i fuel).assg)
      ∧ ((propInner db v a0.trace.length lit wl wb a relevant i fuel).res = .error () →
        (propInner db v a0.trace.length lit wl wb a relevant i fuel).assg = a0) := by
  induction fuel with
  | zero =>
      intro wl wb a relevant i hre
      exact ⟨fun _ => hre, fun h => by simp [propInner] at h⟩
  | succ fuel ih =>
      intro wl wb a relevant i hre
      simp only [propInner]
      split
      · split
        · exact ih _ _ _ _ _ hre
        · split
          · exact ih _ _ _ _ _ hre
          · split
            · exact ih _ _ _ _ _ hre
            · split
              · next u a2 heq =>
                  refine ih _ _ _ _ _ ?_
                  have h2 := reaches_tryAssign a0 a
                    (if (wb (relevant.getD i 0)).1 = lit then (wb (relevant.getD i 0)).2
                      else (wb (relevant.getD i 0)).1) hre
                  rw [heq] at h2
                  exact h2
              · exact ⟨fun h => by simp at h, fun _ => reaches_rollback a0 a hre⟩
      · exact ⟨fun _ => hre, fun h => by simp at h⟩

theorem propOuter_assignment (db : ClauseStorage) (v : View) (a0 : Assignment)
    (fuel : Nat) :
    ∀ (wl : Int → List Nat) (wb : Nat → Int × Int) (a : Assignment)
      (processed : Nat), Reaches a0 a →
      ((propOuter db v a0.trace.length wl wb a processed fuel).res = .ok () →
        Reaches a0 (propOuter db v a0.trace.length wl wb a processed fuel).assg)
      ∧ ((propOuter db v a0.trace.length wl wb a processed fuel).res = .error () →
        (propOuter db v a0.trace.length wl wb a processed fuel).assg = a0) := by
  induction fuel with
  | zero =>
      intro wl wb a processed hre
      exact ⟨fun _ => hre, fun h => by simp [propOuter] at h⟩
  | succ fuel ih =>
      intro wl wb a processed hre
      simp only [propOuter]
      split
      · exact ⟨fun _ => hre, fun h => by simp at h⟩
      · split
        · next e heq =>
            have h2 := (propInner_assignment db v _ a0 _ _ _ _ _ _ hre).2 heq
            exact ⟨fun h => by simp at h, fun _ => h2⟩
        · next u heq =>
            have h1 := (propInner_assignment db v _ a0 _ _ _ _ _ _ hre).1 heq
            exact ih _ _ _ _ h1

theorem reaches_tryAssign_eq (a0 b b2 : Assignment) (l : Int)
    (r : Except Unit Unit) (h : Reaches a0 b)
    (heq : b.tryAssign l = (r, b2)) : Reaches a0 b2 := by
  have h2 := reaches_tryAssign a0 b l h
  rw [heq] at h2
  exact h2

theorem mpropInner_assignment (v : View) (lit : Int) (a0 : Assignment)
    (fuel : Nat) :
    ∀ (db : ClauseStorage) (wl : Int → List Nat) (a : Assignment)
      (relevant : List Nat) (i : Nat), Reaches a0 a →
      ((mpropInner v a0.trace.length lit db wl a relevant i fuel).res = .ok () →
        Reaches a0 (mpropInner v a0.trace.length lit db wl a relevant i fuel).assg)
      ∧ ((mpropInner v a0.trace.length lit db wl a relevant i fuel).res = .error () →
        (mpropInner v a0.trace.length lit db wl a relevant i fuel).assg = a0) := by
  induction fuel with
  | zero =>
      intro db wl a relevant i hre
      exact ⟨fun _ => hre, fun h => by simp [mpropInner] at h⟩
  | succ fuel ih =>
      intro db wl a relevant i hre
      simp only [mpropInner]
      by_cases hfst : (db.firstTwoLiterals (relevant.getD i 0)).1 = lit <;>
        simp only [hfst, eq_self_iff_true, ite_true, ite_false, if_true, if_false] <;>
        · split
          · split
            · exact ih _ _ _ _ _ hre
            · split
              · exact ih _ _ _ _ _ hre
              · split
                · exact ih _ _ _ _ _ hre
                · split
                  · next u a2 heq =>
                      exact ih _ _ _ _ _ (reaches_tryAssign_eq a0 a _ _ _ hre heq)
                  · exact ⟨fun h => by simp at h, fun _ => reaches_rollback a0 a hre⟩
          · exact ⟨fun _ => hre, fun h => by simp at h⟩

theorem mpropOuter_assignment (v : View) (a0 : Assignment) (fuel : Nat) :
    ∀ (db : ClauseStorage) (wl : Int → List Nat) (a : Assignment)
      (processed : Nat), Reaches a0 a →
      ((mpropOuter v a0.trace.length db wl a processed fuel).res = .ok () →
        Reaches a0 (mpropOuter v a0.trace.length db wl a processed fuel).assg)
      ∧ ((mpropOuter v a0.trace.length db wl a processed fuel).res = .error () →
        (mpropOuter v a0.trace.length db wl a processed fuel).assg = a0) := by
  induction fuel with
  | zero =>
      intro db wl a processed hre
      exact ⟨fun _ => hre, fun h => by simp [mpropOuter] at h⟩
  | succ fuel ih =>
      intro db wl a processed hre
      simp only [mpropOuter]
      split
      · exact ⟨fun _ => hre, fun h => by simp at h⟩
      · split
        · next e heq =>
            have h2 := (mpropInner_assignment v _ a0 _ _ _ _ _ _ hre).2 heq
            exact ⟨fun h => by simp at h, fun _ => h2⟩
        · next u heq =>
            have h1 := (mpropInner_assignment v _ a0 _ _ _ _ _ _ hre).1 heq
            exact ih _ _ _ _ h1

/-- C2 amended: for both propagators, when `propagate` returns a
conflict it has rolled the assignment back to its state at entry to the
call (it does not leave the conflict-time assignment in place), and when
it returns without conflict the trail has only grown — the entry trail
is a prefix of the final trail. -/
theorem C2_propagate_conflict_rolls_back_to_entry (db : ClauseStorage)
    (v : View) (a : Assignment) (fuel : Nat) (p : Propagator)
    (mp : MPropagator) :
    ((p.propagate db v a fuel).res = .error () →
      (p.propagate db v a fuel).assg = a)
    ∧ ((p.propagate db v a fuel).res = .ok () →
      ∃ t, (p.propagate db v a fuel).assg.trace = a.trace ++ t)
    ∧ ((mp.propagate db v a fuel).res = .error () →
      (mp.propagate db v a fuel).assg = a)
    ∧ ((mp.propagate db v a fuel).res = .ok () →
      ∃ t, (mp.propagate db v a fuel).assg.trace = a.trace ++ t) := by
  have h1 := propOuter_assignment db v a fuel p.watchlist p.watchedBy a 0
    (reaches_refl a)
  have h2 := mpropOuter_assignment v a fuel db mp.watchlist a 0 (reaches_refl a)
  exact ⟨h1.2, fun h => reaches_trace_grows a _ (h1.1 h),
    h2.2, fun h => reaches_trace_grows a _ (h2.1 h)⟩

/-- C2 counterexample: on database `{1 2}, {-2 3}, {-2 -3}` with entry
trail `[-1]`, the cursor's first iteration forces `2` (the fuel-1 run of
the same call shows the mid-call trail `[-1, 2]`), and the second
iteration forces `3` and then conflicts on `-3`; the full call returns
the conflict with trail `[-1]` — the entry state.  So the trail shrank
within one `propagate` call and the conflict-time assignment was rolled
back by the propagator itself, refuting the claim. -/
theorem C2_conflict_assignment_rolled_back_cex :
    (exProp2.propagate exDb2 exView2 exA2 1).res = .ok ()
    ∧ (exProp2.propagate exDb2 exView2 exA2 1).assg.trace = [-1, 2]
    ∧ (exProp2.propagate exDb2 exView2 exA2 2).res = .error ()
    ∧ (exProp2.propagate exDb2 exView2 exA2 2).assg.trace = [-1]
    ∧ (exProp2.propagate exDb2 exView2 exA2 2).assg.trace ≠ [-1, 2] := by
  exact ⟨rfl, by decide, rfl, by decide, by decide⟩

/-- Witness for C2 at a concrete input: the conflicting run of the
counterexample database indeed returns the entry assignment. -/
theorem C2_propagate_conflict_rolls_back_witness :
    (exProp2.propagate exDb2 exView2 exA2 2).assg = exA2 :=
  (C2_propagate_conflict_rolls_back_to_entry exDb2 exView2 exA2 2 exProp2
    ⟨fun _ => []⟩).1 rfl


/-! ### Claim C4 -/

theorem Builder.addClause_spec (b : Builder) (c : List Int) :
    (b.addClause c).1.clauses.getD (b.addClause c).2 [] = c
    ∧ (b.addClause c).2 < (b.addClause c).1.clauses.length
    ∧ b.clauses.length ≤ (b.addClause c).1.clauses.length
    ∧ (∀ g, g < b.clauses.length →
        (b.addClause c).1.clauses.getD g [] = b.clauses.getD g [])
    ∧ ((b.addClause c).2 < b.clauses.length → (b.addClause c).1 = b)
    ∧ (b.clauses.length ≤ (b.addClause c).2 →
        (b.addClause c).2 = b.clauses.length
        ∧ (b.addClause c).1.clauses = b.clauses ++ [c]) := by
  unfold Builder.addClause
  cases hfind : b.clauses.findIdx? (fun d => d == c) with
  | some i =>
      obtain ⟨hlt, hbeq, -⟩ := List.findIdx?_eq_some_iff_getElem.mp hfind
      have hc : b.clauses[i] = c := by simpa using hbeq
      dsimp only
      refine ⟨?_, hlt, Nat.le_refl _, fun g _ => rfl, fun _ => rfl,
        fun hge => absurd hlt (by omega)⟩
      rw [List.getD_eq_getElem _ _ hlt, hc]
  | none =>
      dsimp only
      refine ⟨?_, by simp, by simp,
        fun g hg => List.getD_append b.clauses [c] [] g hg,
        fun hlt => absurd hlt (by omega), fun _ => ⟨rfl, rfl⟩⟩
      rw [List.getD_append_right b.clauses [c] [] b.clauses.length (Nat.le_refl _)]
      simp

theorem preInitStep_fold_inv (formula : List (List Int)) (fs : List (List Int)) :
    ∀ (st : PreSt),
      (∀ g, 0 ≤ st.seen g) →
      (∀ g, 0 < st.seen g ↔ g < st.builder.clauses.length) →
      (∀ g, st.builder.clauses.length ≤ g → st.seen g = 0) →
      (∀ g, g < st.builder.clauses.length → st.builder.clauses.getD g [] ∈ formula) →
      (∀ x ∈ fs, x ∈ formula) →
      (∀ g, 0 ≤ (fs.foldl preInitStep st).seen g)
      ∧ (∀ g, 0 < (fs.foldl preInitStep st).seen g
          ↔ g < (fs.foldl preInitStep st).builder.clauses.length)
      ∧ (∀ g, (fs.foldl preInitStep st).builder.clauses.length ≤ g →
          (fs.foldl preInitStep st).seen g = 0)
      ∧ (∀ g, g < (fs.foldl preInitStep st).builder.clauses.length →
          (fs.foldl preInitStep st).builder.clauses.getD g [] ∈ formula) := by
  induction fs with
  | nil => intro st h1 h2 h3 h4 _; exact ⟨h1, h2, h3, h4⟩
  | cons c fs ih =>
      intro st h1 h2 h3 h4 hsub
      rw [List.foldl_cons]
      obtain ⟨s1, s2, s3, s4, s5, s6⟩ := Builder.addClause_spec st.builder c
      have hself : (st.builder.addClause c).2 < st.builder.clauses.length
          → 0 < st.seen (st.builder.addClause c).2 + 1 := by
        intro _
        have := h1 (st.builder.addClause c).2
        omega
      refine ih (preInitStep st c) ?_ ?_ ?_ ?_
        (fun x hx => hsub x (List.mem_cons_of_mem c hx))
      · intro g
        unfold preInitStep
        dsimp only
        rw [updN_apply]
        split
        · have := h1 (st.builder.addClause c).2; omega
        · exact h1 g
      · intro g
        unfold preInitStep
        dsimp only
        rw [updN_apply]
        by_cases hg : g = (st.builder.addClause c).2
        · rw [if_pos hg, hg]
          have := h1 (st.builder.addClause c).2
          constructor
          · intro _; exact s2
          · intro _; omega
        · rw [if_neg hg]
          rw [h2 g]
          by_cases hlt : (st.builder.addClause c).2 < st.builder.clauses.length
          · rw [s5 hlt]
          · obtain ⟨he, hList⟩ := s6 (by omega)
            rw [hList, List.length_append]
            simp only [List.length_cons, List.length_nil]
            omega
      · intro g hg
        unfold preInitStep at hg ⊢
        dsimp only at hg ⊢
        rw [updN_apply]
        have hgn : g ≠ (st.builder.addClause c).2 := by omega
        rw [if_neg hgn]
        exact h3 g (by omega)
      · intro g hg
        unfold preInitStep at hg ⊢
        dsimp only at hg ⊢
        by_cases hlt : g < st.builder.clauses.length
        · rw [s4 g hlt]
          exact h4 g hlt
        · by_cases hEq : g = (st.builder.addClause c).2
          · rw [hEq, s1]
            exact hsub c (List.mem_cons_self c fs)
          · exfalso
            by_cases hfound : (st.builder.addClause c).2 < st.builder.clauses.length
            · have : (st.builder.addClause c).1 = st.builder := s5 hfound
              rw [this] at hg
              omega
            · obtain ⟨he, hList⟩ := s6 (by omega)
              rw [hList, List.length_append] at hg
              simp only [List.length_cons, List.length_nil] at hg
              omega

theorem preprocessInit_inv (formula : List (List Int)) :
    PreInv formula (preprocessInit formula) (initialActiveF formula) [] := by
  have h0 := preInitStep_fold_inv formula formula ⟨⟨[]⟩, fun _ => 0⟩
    (fun g => Int.le_refl 0) (fun g => by simp) (fun g _ => rfl)
    (fun g hg => absurd hg (by simp)) (fun x hx => hx)
  obtain ⟨q1, q2, q3, q4⟩ := h0
  have hlen : (preprocessInit formula).builder.clauses.length
      = (formula.foldl preInitStep ⟨⟨[]⟩, fun _ => 0⟩).builder.clauses.length := rfl
  refine ⟨q1, ?_, ?_, q3, ?_⟩
  · intro g
    rw [show (preprocessInit formula).seen = (formula.foldl preInitStep ⟨⟨[]⟩, fun _ => 0⟩).seen from rfl]
    rw [q2 g]
    simp only [initialActiveF, decide_eq_true_eq]
    rw [hlen]
  · intro g hg
    simp only [initialActiveF, decide_eq_true_eq] at hg
    exact hg
  · intro g hg
    left
    exact q4 g ((q2 g).mp hg)

theorem preInv_step (formula : List (List Int)) (st : PreSt) (active : Nat → Bool)
    (hist : List RawLemma) (inv : PreInv formula st active hist) (rl : RawLemma) :
    PreInv formula (preprocessStep st rl).1
      ((preprocessStep st rl).2.elim active (applyLemma active))
      (hist ++ [rl]) := by
  obtain ⟨inv1, inv2, inv3, inv4, inv5⟩ := inv
  have hmono : ∀ (x : RawLemma), x ∈ hist → x ∈ hist ++ [rl] :=
    fun x h => List.mem_append.mpr (.inl h)
  have hseen_lt : ∀ g, 0 < st.seen g → g < st.builder.clauses.length := by
    intro g hg
    by_contra hge
    have := inv4 g (by omega)
    omega
  cases rl with
  | addR c =>
      obtain ⟨s1, s2, s3, s4, s5, s6⟩ := Builder.addClause_spec st.builder c
      unfold preprocessStep
      dsimp only
      by_cases he : st.seen (st.builder.addClause c).2 > 0
      · rw [if_pos he]
        dsimp only [Option.elim]
        have hfound := hseen_lt _ he
        have hb : (st.builder.addClause c).1 = st.builder := s5 hfound
        refine ⟨?_, ?_, ?_, ?_, ?_⟩
        · intro g
          dsimp only
          rw [updN_apply]
          split
          · have := inv1 (st.builder.addClause c).2; omega
          · exact inv1 g
        · intro g
          dsimp only
          rw [updN_apply]
          by_cases hg : g = (st.builder.addClause c).2
          · rw [if_pos hg, hg]
            have h2 := (inv2 (st.builder.addClause c).2).mp he
            have := inv1 (st.builder.addClause c).2
            constructor
            · intro _; exact h2
            · intro _; omega
          · rw [if_neg hg]
            exact inv2 g
        · intro g hg
          dsimp only at hg ⊢
          rw [hb]
          exact inv3 g hg
        · intro g hg
          dsimp only at hg ⊢
          rw [hb] at hg
          rw [updN_apply]
          have hgn : g ≠ (st.builder.addClause c).2 := by omega
          rw [if_neg hgn]
          exact inv4 g hg
        · intro g hg
          dsimp only at hg ⊢
          rw [updN_apply] at hg
          rw [hb]
          by_cases hgn : g = (st.builder.addClause c).2
          · right
            have s1b := s1
            rw [hb] at s1b
            rw [hgn, s1b]
            exact List.mem_append.mpr (.inr (List.mem_singleton.mpr rfl))
          · rw [if_neg hgn] at hg
            rcases inv5 g hg with h | h
            · exact .inl h
            · exact .inr (hmono _ h)
      · rw [if_neg he]
        dsimp only [Option.elim, applyLemma]
        have he0 : st.seen (st.builder.addClause c).2 = 0 := by
          have := inv1 (st.builder.addClause c).2
          omega
        refine ⟨?_, ?_, ?_, ?_, ?_⟩
        · intro g
          dsimp only
          rw [updN_apply]
          split
          · omega
          · exact inv1 g
        · intro g
          dsimp only
          rw [updN_apply, updN_apply]
          by_cases hg : g = (st.builder.addClause c).2
          · rw [if_pos hg, if_pos hg]
            have := inv1 (st.builder.addClause c).2
            simp only [eq_self_iff_true, iff_true]
            omega
          · rw [if_neg hg, if_neg hg]
            exact inv2 g
        · intro g hg
          dsimp only at hg ⊢
          rw [updN_apply] at hg
          by_cases hgn : g = (st.builder.addClause c).2
          · rw [hgn]
            exact s2
          · rw [if_neg hgn] at hg
            have := inv3 g hg
            omega
        · intro g hg
          dsimp only at hg ⊢
          rw [updN_apply]
          have hgn : g ≠ (st.builder.addClause c).2 := by omega
          rw [if_neg hgn]
          exact inv4 g (by omega)
        · intro g hg
          dsimp only at hg ⊢
          rw [updN_apply] at hg
          by_cases hgn : g = (st.builder.addClause c).2
          · right
            rw [hgn, s1]
            exact List.mem_append.mpr (.inr (List.mem_singleton.mpr rfl))
          · rw [if_neg hgn] at hg
            have hglt := hseen_lt g hg
            rw [s4 g hglt]
            rcases inv5 g hg with h | h
            · exact .inl h
            · exact .inr (hmono _ h)
  | delR c =>
      obtain ⟨s1, s2, s3, s4, s5, s6⟩ := Builder.addClause_spec st.builder c
      unfold preprocessStep
      dsimp only
      by_cases he : st.seen (st.builder.addClause c).2 < 1
      · rw [if_pos he]
        dsimp only [Option.elim]
        refine ⟨inv1, inv2, ?_, ?_, ?_⟩
        · intro g hg
          dsimp only
          have := inv3 g hg
          omega
        · intro g hg
          dsimp only at hg
          exact inv4 g (by omega)
        · intro g hg
          dsimp only at hg ⊢
          have hglt := hseen_lt g hg
          rw [s4 g hglt]
          rcases inv5 g hg with h | h
          · exact .inl h
          · exact .inr (hmono _ h)
      · rw [if_neg he]
        have hpos : 0 < st.seen (st.builder.addClause c).2 := by omega
        have hfound := hseen_lt _ hpos
        have hb : (st.builder.addClause c).1 = st.builder := s5 hfound
        by_cases hone : st.seen (st.builder.addClause c).2 - 1 = 0
        · rw [if_pos hone]
          dsimp only [Option.elim, applyLemma]
          refine ⟨?_, ?_, ?_, ?_, ?_⟩
          · intro g
            dsimp only
            rw [updN_apply]
            split
            · omega
            · exact inv1 g
          · intro g
            dsimp only
            rw [updN_apply, updN_apply]
            by_cases hg : g = (st.builder.addClause c).2
            · rw [if_pos hg, if_pos hg, hone]
              simp
            · rw [if_neg hg, if_neg hg]
              exact inv2 g
          · intro g hg
            dsimp only at hg ⊢
            rw [updN_apply] at hg
            rw [hb]
            by_cases hgn : g = (st.builder.addClause c).2
            · rw [if_pos hgn] at hg
              cases hg
            · rw [if_neg hgn] at hg
              exact inv3 g hg
          · intro g hg
            dsimp only at hg ⊢
            rw [hb] at hg
            rw [updN_apply]
            have hgn : g ≠ (st.builder.addClause c).2 := by omega
            rw [if_neg hgn]
            exact inv4 g hg
          · intro g hg
            dsimp only at hg ⊢
            rw [updN_apply] at hg
            rw [hb]
            by_cases hgn : g = (st.builder.addClause c).2
            · rw [if_pos hgn] at hg
              omega
            · rw [if_neg hgn] at hg
              rcases inv5 g hg with h | h
              · exact .inl h
              · exact .inr (hmono _ h)
        · rw [if_neg hone]
          dsimp only [Option.elim]
          refine ⟨?_, ?_, ?_, ?_, ?_⟩
          · intro g
            dsimp only
            rw [updN_apply]
            split
            · omega
            · exact inv1 g
          · intro g
            dsimp only
            rw [updN_apply]
            by_cases hg : g = (st.builder.addClause c).2
            · rw [if_pos hg, hg]
              have h2 := (inv2 (st.builder.addClause c).2).mp hpos
              constructor
              · intro _; exact h2
              · intro _; omega
            · rw [if_neg hg]
              exact inv2 g
          · intro g hg
            dsimp only at hg ⊢
            rw [hb]
            exact inv3 g hg
          · intro g hg
            dsimp only at hg ⊢
            rw [hb] at hg
            rw [updN_apply]
            have hgn : g ≠ (st.builder.addClause c).2 := by omega
            rw [if_neg hgn]
            exact inv4 g hg
          · intro g hg
            dsimp only at hg ⊢
            rw [updN_apply] at hg
            rw [hb]
            by_cases hgn : g = (st.builder.addClause c).2
            · rw [if_pos hgn] at hg
              rcases inv5 _ hpos with h | h
              · exact .inl (by rwa [hgn])
              · exact .inr (hmono _ (by rwa [hgn]))
            · rw [if_neg hgn] at hg
              rcases inv5 g hg with h | h
              · exact .inl h
              · exact .inr (hmono _ h)

theorem preInv_loop (formula : List (List Int)) (rest : List RawLemma) :
    ∀ (st : PreSt) (active : Nat → Bool) (hist : List RawLemma),
      PreInv formula st active hist →
      PreInv formula (preprocessLoop st rest).1
        (((preprocessLoop st rest).2).foldl applyLemma active)
        (hist ++ rest) := by
  induction rest with
  | nil =>
      intro st active hist inv
      simpa [preprocessLoop] using inv
  | cons rl rest ih =>
      intro st active hist inv
      have hstep := preInv_step formula st active hist inv rl
      have hrec := ih (preprocessStep st rl).1
        ((preprocessStep st rl).2.elim active (applyLemma active))
        (hist ++ [rl]) hstep
      have helim : ((preprocessStep st rl).2.toList).foldl applyLemma active
          = (preprocessStep st rl).2.elim active (applyLemma active) := by
        cases (preprocessStep st rl).2 <;> rfl
      simp only [preprocessLoop]
      rw [List.foldl_append, helim]
      rw [show hist ++ rl :: rest = (hist ++ [rl]) ++ rest by simp]
      exact hrec

/-- C4: `preprocess` emits a handle-tagged Add step exactly when the
clause's content is not currently present (an addition of a present
clause is elided; an addition of a clause seen before but absent after a
deletion is kept, since presence is tracked by replaying the emitted
steps), and it elides every Del step whose content was never added
before the deletion. -/
theorem C4_preprocess_add_iff_absent (formula : List (List Int))
    (pre : List RawLemma) (c : List Int) :
    ∀ st h, st = (preprocessLoop (preprocessInit formula) pre).1 →
      h = (st.builder.addClause c).2 →
      (((preprocessStep st (.addR c)).2 = some (.addL h)
          ↔ activePre formula pre h = false)
        ∧ ((preprocessStep st (.addR c)).2 = none
          ↔ activePre formula pre h = true)
        ∧ (c ∉ formula → (∀ rl ∈ pre, rl ≠ RawLemma.addR c) →
            (preprocessStep st (.delR c)).2 = none)) := by
  intro st h hst hh
  have inv := preInv_loop formula pre (preprocessInit formula)
    (initialActiveF formula) [] (preprocessInit_inv formula)
  rw [List.nil_append] at inv
  rw [← hst] at inv
  obtain ⟨inv1, inv2, inv3, inv4, inv5⟩ := inv
  unfold activePre
  subst hh
  refine ⟨?_, ?_, ?_⟩
  · unfold preprocessStep
    dsimp only
    by_cases he : st.seen (st.builder.addClause c).2 > 0
    · rw [if_pos he]
      dsimp only
      constructor
      · intro hEq; exact Option.noConfusion hEq
      · intro hfalse
        rw [(inv2 _).mp he] at hfalse
        exact Bool.noConfusion hfalse
    · rw [if_neg he]
      dsimp only
      constructor
      · intro _
        cases hcase : ((preprocessLoop (preprocessInit formula) pre).2).foldl
            applyLemma (initialActiveF formula) (st.builder.addClause c).2 with
        | false => rfl
        | true =>
            exfalso
            exact he ((inv2 _).mpr hcase)
      · intro _; rfl
  · unfold preprocessStep
    dsimp only
    by_cases he : st.seen (st.builder.addClause c).2 > 0
    · rw [if_pos he]
      dsimp only
      constructor
      · intro _
        exact (inv2 _).mp he
      · intro _; rfl
    · rw [if_neg he]
      dsimp only
      constructor
      · intro hEq; exact Option.noConfusion hEq
      · intro htrue
        exact absurd ((inv2 _).mpr htrue) he
  · intro hcf hcp
    obtain ⟨s1, s2, s3, s4, s5, s6⟩ := Builder.addClause_spec st.builder c
    unfold preprocessStep
    dsimp only
    have hz : st.seen (st.builder.addClause c).2 < 1 := by
      by_cases hlt : (st.builder.addClause c).2 < st.builder.clauses.length
      · have hb := s5 hlt
        have s1b := s1
        rw [hb] at s1b
        by_contra hpos
        have hpos2 : 0 < st.seen (st.builder.addClause c).2 := by omega
        rcases inv5 _ hpos2 with hin | hin
        · rw [s1b] at hin
          exact hcf hin
        · rw [s1b] at hin
          exact (hcp _ hin) rfl
      · have := inv4 (st.builder.addClause c).2 (by omega)
        omega
    rw [if_pos hz]

/-- Witness for C4 at concrete inputs: re-adding `{1 2}` after deleting
it from the one-clause formula is kept (the content is absent again),
and deleting never-added `{3}` is elided. -/
theorem C4_preprocess_add_iff_absent_witness :
    (preprocessStep (preprocessLoop (preprocessInit [[1, 2]]) [.delR [1, 2]]).1
        (.addR [1, 2])).2 = some (.addL 0)
    ∧ (preprocessStep (preprocessLoop (preprocessInit [[1, 2]]) []).1
        (.delR [3])).2 = none := by
  constructor
  · exact ((C4_preprocess_add_iff_absent [[1, 2]] [.delR [1, 2]] [1, 2]) _ _
      rfl rfl).1.mpr (by decide)
  · exact ((C4_preprocess_add_iff_absent [[1, 2]] [] [3]) _ _ rfl rfl).2.2
      (by decide) (by decide)

/-! ### Claim C1 -/

/-- C1 (code bug): on the example, the Add step of clause 4 = `{1 2}`
passes the RUP check (`has_rup` is true), the clause is neither empty
nor a unit, and after the step the clause is marked active in the view —
but it appears in no watchlist: `db_view.add(clause)` runs before the
`!db_view.is_active(clause)` guard, so `propagator.add_clause` is
unreachable and the clause is never registered with the watcher,
contrary to the claim (and to the source's own comment "add it to the
propagator if it is not already there"). -/
theorem C1_checker_add_marks_active_but_never_registers :
    (Checker.hasRup exDb exView (Propagator.mk0 exDb exView) exA0 4 100).1 = true
    ∧ 2 ≤ (exDb.clause 4).length
    ∧ exDb.extractTrueUnit 4 = none
    ∧ exStep1.getView.isActive 4 = true
    ∧ (exStep1.getProp.watchlist 1).count 4 = 0
    ∧ (exStep1.getProp.watchlist 2).count 4 = 0
    ∧ (exStep1.getProp.watchlist 3).count 4 = 0
    ∧ (exStep1.getProp.watchlist (-1)).count 4 = 0
    ∧ (exStep1.getProp.watchlist (-2)).count 4 = 0
    ∧ (exStep1.getProp.watchlist (-3)).count 4 = 0 :=
  ⟨rfl, by decide, rfl, rfl, rfl, rfl, rfl, rfl, rfl, rfl⟩

/-! ### Claim C10 -/

/-- C10 (code bug): on the example formula and raw proof, the two
checkers disagree.  The mutating checker registers the RUP-verified
clause `{1 2}` with its watcher, so the next lemma `{1}` is RUP through
it and the run ends with the no-conflict error; the immutable checker
never registers `{1 2}` (the dead guard of C1), so it rejects `{1}` as
not RUP.  The two validators thus neither agree on acceptance behavior
nor on the failure kind. -/
theorem C10_checkers_disagree_on_example :
    exScript = [.addL 4, .addL 5]
    ∧ Checker.validate exDb exView exScript false 100 = .error .notRup
    ∧ MChecker.validate exDb exView exScript 100 = .error .noConflict :=
  ⟨rfl, rfl, rfl⟩

/-! ### Claim C3 -/

/-- C3 counterexample: initialize the propagator with the single active
clause 0 = `{1 2}` (watched once at 1 and at 2), delete it, then re-add
it via `add_clause` as the checker does after a deletion.  The clause is
active again but now occurs twice in `watchlist[1]` and twice in
`watchlist[2]` — the exactly-once invariant the claim asserts fails for
a deleted and re-added clause (the mutating propagator's own comment
warns that this "causes undefined behavior if a clause is removed and
later readded"). -/
theorem C3_delete_readd_duplicates_watchlist_cex :
    exPState3.view.isActive 0 = true
    ∧ 2 ≤ (exDb3.clause 0).length
    ∧ exPState3.prop.watchedBy 0 = (1, 2)
    ∧ (exPState3.prop.watchlist 1).count 0 = 2
    ∧ (exPState3.prop.watchlist 2).count 0 = 2 :=
  ⟨rfl, by decide, rfl, rfl, rfl⟩

theorem swapRemove_perm {α : Type} [Inhabited α] (l : List α) (i : Nat)
    (h : i < l.length) : (swapRemove l i).Perm (l.eraseIdx i) := by
  rcases List.eq_nil_or_concat l with hnil | ⟨ys, x, hx⟩
  · rw [hnil] at h; simp at h
  · rw [List.concat_eq_append] at hx
    subst hx
    unfold swapRemove
    rw [List.getLast?_concat]
    dsimp only
    rw [List.set_append]
    by_cases hi : i < ys.length
    · rw [if_pos hi, List.dropLast_concat,
        List.eraseIdx_append_of_lt_length hi [x]]
      rw [List.set_eq_take_append_cons_drop, if_pos hi,
        List.eraseIdx_eq_take_drop_succ, List.append_assoc]
      exact List.Perm.append_left _ (List.perm_append_singleton x _).symm
    · have hIdx : i = ys.length := by
        rw [List.length_append, List.length_cons, List.length_nil] at h
        omega
      rw [if_neg hi, hIdx]
      simp only [Nat.sub_self]
      rw [show ([x].set 0 x) = [x] from rfl, List.dropLast_concat,
        List.eraseIdx_eq_take_drop_succ]
      rw [List.take_left ys [x]]
      have : List.drop (ys.length + 1) (ys ++ [x]) = [] := by
        apply List.drop_eq_nil_of_le
        rw [List.length_append, List.length_cons, List.length_nil]
      rw [this, List.append_nil]

theorem count_eraseIdx_getD (l : List Nat) (i : Nat) (h : i < l.length) (d : Nat) :
    l.count d = (l.eraseIdx i).count d + (if l.getD i 0 = d then 1 else 0) := by
  have hdrop := List.drop_eq_getElem_cons h
  rw [List.eraseIdx_eq_take_drop_succ, List.count_append]
  conv_lhs => rw [← List.take_append_drop i l, List.count_append, hdrop,
    List.count_cons]
  rw [List.getD_eq_getElem l 0 h]
  by_cases hEq : l[i] = d <;> simp [hEq] <;> omega

theorem count_swapRemove_getD (l : List Nat) (i : Nat) (h : i < l.length) (d : Nat) :
    l.count d = (swapRemove l i).count d + (if l.getD i 0 = d then 1 else 0) := by
  rw [List.Perm.count_eq (swapRemove_perm l i h) d]
  exact count_eraseIdx_getD l i h d

theorem watchinv_migrate (db : ClauseStorage) (added : List Nat)
    (wl : Int → List Nat) (wb : Nat → Int × Int) (a : Assignment)
    (lit nl : Int) (relevant : List Nat) (i : Nat)
    (hi : i < relevant.length)
    (hinv : WatchInv db added (updF wl lit relevant) wb)
    (hfind : findNextUnassigned (db.clause (relevant.getD i 0)) a
      (wb (relevant.getD i 0)).1 (wb (relevant.getD i 0)).2 = some nl) :
    WatchInv db added
      (updF (updF wl nl (wl nl ++ [relevant.getD i 0])) lit (swapRemove relevant i))
      (updN wb (relevant.getD i 0)
        (nl, if (wb (relevant.getD i 0)).1 = lit
          then (wb (relevant.getD i 0)).2 else (wb (relevant.getD i 0)).1)) := by
  have hp := List.find?_some hfind
  simp only [Bool.and_eq_true, bne_iff_ne] at hp
  obtain ⟨⟨hnlf, hnls⟩, -⟩ := hp
  have hc_mem : relevant.getD i 0 ∈ relevant := by
    rw [List.getD_eq_getElem relevant 0 hi]
    exact List.getElem_mem hi
  have hcount_pos : 0 < relevant.count (relevant.getD i 0) :=
    List.count_pos_iff.mpr hc_mem
  have hWlit : updF wl lit relevant lit = relevant := by
    rw [updF_apply, if_pos rfl]
  have hWne : ∀ l, l ≠ lit → updF wl lit relevant l = wl l := by
    intro l hl
    rw [updF_apply, if_neg hl]
  obtain ⟨hmain, helse⟩ := hinv (relevant.getD i 0)
  by_cases hcw : relevant.getD i 0 ∈ added
      ∧ 2 ≤ (db.clause (relevant.getD i 0)).length
  case neg =>
    exfalso
    have h00 := helse hcw lit
    rw [hWlit] at h00
    omega
  obtain ⟨hfs, h1, h2, h0⟩ := hmain hcw
  have hlit : lit = (wb (relevant.getD i 0)).1
      ∨ lit = (wb (relevant.getD i 0)).2 := by
    by_contra hno
    push_neg at hno
    have h00 := h0 lit hno.1 hno.2
    rw [hWlit] at h00
    omega
  have hcount_rel : relevant.count (relevant.getD i 0) = 1 := by
    rcases hlit with hl | hl
    · rw [← hl, hWlit] at h1; exact h1
    · rw [← hl, hWlit] at h2; exact h2
  have hnl_ne_lit : nl ≠ lit := by
    rcases hlit with hl | hl
    · rw [hl]; exact hnlf
    · rw [hl]; exact hnls
  have hoth_ne_lit : (if (wb (relevant.getD i 0)).1 = lit
      then (wb (relevant.getD i 0)).2 else (wb (relevant.getD i 0)).1) ≠ lit := by
    split
    · next hEq => rw [← hEq]; exact fun hss => hfs hss.symm
    · next hEq => exact hEq
  have hnl_ne_oth : nl ≠ (if (wb (relevant.getD i 0)).1 = lit
      then (wb (relevant.getD i 0)).2 else (wb (relevant.getD i 0)).1) := by
    split
    · exact hnls
    · exact hnlf
  have hcount_oth : ((updF wl lit relevant) (if (wb (relevant.getD i 0)).1 = lit
      then (wb (relevant.getD i 0)).2 else (wb (relevant.getD i 0)).1)).count
        (relevant.getD i 0) = 1 := by
    split
    · exact h2
    · exact h1
  have hslots : ∀ l : Int, l ≠ lit →
      l ≠ (if (wb (relevant.getD i 0)).1 = lit
        then (wb (relevant.getD i 0)).2 else (wb (relevant.getD i 0)).1) →
      l ≠ (wb (relevant.getD i 0)).1 ∧ l ≠ (wb (relevant.getD i 0)).2 := by
    intro l hl1 hl2
    by_cases hflit : (wb (relevant.getD i 0)).1 = lit
    · rw [if_pos hflit] at hl2
      exact ⟨fun hEq => hl1 (hEq.trans hflit), hl2⟩
    · rw [if_neg hflit] at hl2
      rcases hlit with hl | hl
      · exact absurd hl.symm hflit
      · exact ⟨hl2, fun hEq => hl1 (by rw [hEq, ← hl])⟩
  have hW2lit : (updF (updF wl nl (wl nl ++ [relevant.getD i 0])) lit
      (swapRemove relevant i)) lit = swapRemove relevant i := by
    rw [updF_apply, if_pos rfl]
  have hW2nl : (updF (updF wl nl (wl nl ++ [relevant.getD i 0])) lit
      (swapRemove relevant i)) nl = wl nl ++ [relevant.getD i 0] := by
    rw [updF_apply, if_neg hnl_ne_lit, updF_apply, if_pos rfl]
  have hW2other : ∀ l, l ≠ lit → l ≠ nl →
      (updF (updF wl nl (wl nl ++ [relevant.getD i 0])) lit
        (swapRemove relevant i)) l = wl l := by
    intro l hl1 hl2
    rw [updF_apply, if_neg hl1, updF_apply, if_neg hl2]
  have hswapc : (swapRemove relevant i).count (relevant.getD i 0) = 0 := by
    have := count_swapRemove_getD relevant i hi (relevant.getD i 0)
    rw [if_pos rfl] at this
    omega
  have hswapd : ∀ d : Nat, d ≠ relevant.getD i 0 →
      (swapRemove relevant i).count d = relevant.count d := by
    intro d hd
    have := count_swapRemove_getD relevant i hi d
    rw [if_neg (fun hEq => hd hEq.symm)] at this
    omega
  intro d
  by_cases hdc : d = relevant.getD i 0
  · subst hdc
    constructor
    · intro _
      rw [updN_apply, if_pos rfl]
      dsimp only
      refine ⟨hnl_ne_oth, ?_, ?_, ?_⟩
      · rw [hW2nl, List.count_append]
        have hz := h0 nl hnlf hnls
        rw [hWne nl hnl_ne_lit] at hz
        rw [hz]
        simp
      · rw [hW2other _ hoth_ne_lit (fun hEq => hnl_ne_oth hEq.symm)]
        rw [hWne _ hoth_ne_lit] at hcount_oth
        exact hcount_oth
      · intro l hlnl hloth
        by_cases hllit : l = lit
        · rw [hllit, hW2lit]
          exact hswapc
        · rw [hW2other l hllit hlnl]
          obtain ⟨e1, e2⟩ := hslots l hllit hloth
          have hz := h0 l e1 e2
          rw [hWne l hllit] at hz
          exact hz
    · intro hncw
      exact absurd hcw hncw
  · have hcnt : ∀ l, ((updF (updF wl nl (wl nl ++ [relevant.getD i 0])) lit
        (swapRemove relevant i)) l).count d
        = ((updF wl lit relevant) l).count d := by
      intro l
      by_cases hllit : l = lit
      · rw [hllit, hW2lit, hWlit]
        exact hswapd d hdc
      · by_cases hlnl : l = nl
        · rw [hlnl, hW2nl, hWne nl hnl_ne_lit, List.count_append]
          have hz : List.count d [relevant.getD i 0] = 0 := by
            rw [List.count_eq_zero]
            intro hmem
            exact hdc (by simpa using hmem)
          omega
        · rw [hW2other l hllit hlnl, hWne l hllit]
    obtain ⟨omain, oelse⟩ := hinv d
    constructor
    · intro hcond
      obtain ⟨o1, o2, o3, o4⟩ := omain hcond
      rw [updN_apply, if_neg hdc]
      refine ⟨o1, ?_, ?_, ?_⟩
      · rw [hcnt]; exact o2
      · rw [hcnt]; exact o3
      · intro l hl1 hl2
        rw [hcnt]; exact o4 l hl1 hl2
    · intro hncond l
      rw [hcnt]
      exact oelse hncond l

theorem updF_take_putback {α : Type} (f : Int → α) (x : Int) (v : α) :
    updF (updF f x v) x (f x) = f := by
  funext y
  unfold updF
  by_cases hy : y = x
  · rw [if_pos hy, hy]
  · rw [if_neg hy, if_neg hy]

theorem propInner_watchinv (db : ClauseStorage) (v : View) (rb : Nat)
    (lit : Int) (added : List Nat) (fuel : Nat) :
    ∀ (wl : Int → List Nat) (wb : Nat → Int × Int) (a : Assignment)
      (relevant : List Nat) (i : Nat),
      WatchInv db added (updF wl lit relevant) wb →
      WatchInv db added (propInner db v rb lit wl wb a relevant i fuel).wl
        (propInner db v rb lit wl wb a relevant i fuel).wb := by
  induction fuel with
  | zero =>
      intro wl wb a relevant i hinv
      exact hinv
  | succ fuel ih =>
      intro wl wb a relevant i hinv
      simp only [propInner]
      split
      · next hi =>
          split
          · exact ih _ _ _ _ _ hinv
          · split
            · exact ih _ _ _ _ _ hinv
            · split
              · next nl hfind =>
                  exact ih _ _ _ _ _
                    (watchinv_migrate db added wl wb a lit nl relevant i hi hinv hfind)
              · split
                · exact ih _ _ _ _ _ hinv
                · exact hinv
      · exact hinv

theorem propOuter_watchinv (db : ClauseStorage) (v : View) (rb : Nat)
    (added : List Nat) (fuel : Nat) :
    ∀ (wl : Int → List Nat) (wb : Nat → Int × Int) (a : Assignment)
      (processed : Nat),
      WatchInv db added wl wb →
      WatchInv db added (propOuter db v rb wl wb a processed fuel).wl
        (propOuter db v rb wl wb a processed fuel).wb := by
  induction fuel with
  | zero =>
      intro wl wb a processed hinv
      exact hinv
  | succ fuel ih =>
      intro wl wb a processed hinv
      simp only [propOuter]
      split
      · exact hinv
      · have hpre : WatchInv db added
            (updF (updF wl (-(a.nthLit processed)) []) (-(a.nthLit processed))
              (wl (-(a.nthLit processed)))) wb := by
          rw [updF_take_putback]
          exact hinv
        have hinner := propInner_watchinv db v rb (-(a.nthLit processed)) added
          (wl (-(a.nthLit processed))).length
          (updF wl (-(a.nthLit processed)) []) wb a
          (wl (-(a.nthLit processed))) 0 hpre
        split
        · exact hinner
        · exact ih _ _ _ _ hinner

theorem watchinv_addClause (db : ClauseStorage) (added : List Nat)
    (p : Propagator) (c : Nat)
    (hinv : WatchInv db added p.watchlist p.watchedBy)
    (hnotin : c ∉ added)
    (hnd : (db.clause c).Nodup) :
    WatchInv db (added ++ [c]) (p.addClause db c).watchlist
      (p.addClause db c).watchedBy := by
  have hzero : ∀ l, (p.watchlist l).count c = 0 :=
    fun l => (hinv c).2 (fun hAnd => hnotin hAnd.1) l
  have htrans : ∀ (d : Nat), d ≠ c → (d ∈ added ++ [c] ↔ d ∈ added) := by
    intro d hdc
    constructor
    · intro h
      rcases List.mem_append.mp h with h | h
      · exact h
      · exact absurd (by simpa using h) hdc
    · intro h
      exact List.mem_append.mpr (.inl h)
  unfold Propagator.addClause
  cases hcl : db.clause c with
  | nil =>
      dsimp only
      intro d
      constructor
      · intro hcond
        by_cases hdc : d = c
        · exfalso
          rw [hdc, hcl] at hcond
          simp at hcond
        · exact (hinv d).1 ⟨(htrans d hdc).mp hcond.1, hcond.2⟩
      · intro hncond l
        by_cases hdc : d = c
        · rw [hdc]
          exact hzero l
        · refine (hinv d).2 (fun hAnd => hncond ⟨(htrans d hdc).mpr hAnd.1, hAnd.2⟩) l
  | cons fst rest0 =>
      cases rest0 with
      | nil =>
          dsimp only
          intro d
          constructor
          · intro hcond
            by_cases hdc : d = c
            · exfalso
              rw [hdc, hcl] at hcond
              simp at hcond
            · exact (hinv d).1 ⟨(htrans d hdc).mp hcond.1, hcond.2⟩
          · intro hncond l
            by_cases hdc : d = c
            · rw [hdc]
              exact hzero l
            · refine (hinv d).2 (fun hAnd => hncond ⟨(htrans d hdc).mpr hAnd.1, hAnd.2⟩) l
      | cons snd rest =>
          have hfs : fst ≠ snd := by
            intro hEq
            rw [hcl, List.nodup_cons] at hnd
            exact hnd.1 (hEq ▸ List.mem_cons_self snd rest)
          dsimp only
          have hW2fst : (updF (updF p.watchlist fst (p.watchlist fst ++ [c])) snd
              ((updF p.watchlist fst (p.watchlist fst ++ [c])) snd ++ [c])) fst
              = p.watchlist fst ++ [c] := by
            rw [updF_apply, if_neg hfs, updF_apply, if_pos rfl]
          have hW2snd : (updF (updF p.watchlist fst (p.watchlist fst ++ [c])) snd
              ((updF p.watchlist fst (p.watchlist fst ++ [c])) snd ++ [c])) snd
              = p.watchlist snd ++ [c] := by
            rw [updF_apply, if_pos rfl, updF_apply, if_neg (fun h => hfs h.symm)]
          have hW2else : ∀ l, l ≠ fst → l ≠ snd →
              (updF (updF p.watchlist fst (p.watchlist fst ++ [c])) snd
                ((updF p.watchlist fst (p.watchlist fst ++ [c])) snd ++ [c])) l
              = p.watchlist l := by
            intro l h1 h2
            rw [updF_apply, if_neg h2, updF_apply, if_neg h1]
          intro d
          by_cases hdc : d = c
          · constructor
            · intro _
              rw [hdc]
              rw [updN_apply, if_pos rfl]
              dsimp only
              refine ⟨hfs, ?_, ?_, ?_⟩
              · rw [hW2fst, List.count_append, hzero fst]
                simp
              · rw [hW2snd, List.count_append, hzero snd]
                simp
              · intro l hl1 hl2
                rw [hW2else l hl1 hl2]
                exact hzero l
            · intro hncond
              exfalso
              apply hncond
              rw [hdc]
              refine ⟨List.mem_append.mpr (.inr (List.mem_singleton.mpr rfl)), ?_⟩
              rw [hcl]
              simp
          · have hcnt : ∀ l, ((updF (updF p.watchlist fst (p.watchlist fst ++ [c])) snd
                ((updF p.watchlist fst (p.watchlist fst ++ [c])) snd ++ [c])) l).count d
                = (p.watchlist l).count d := by
              intro l
              have hone : List.count d [c] = 0 := by
                rw [List.count_eq_zero]
                intro hmem
                have hEq : d = c := by simpa using hmem
                exact hdc hEq
              by_cases h1 : l = fst
              · rw [h1, hW2fst, List.count_append]
                omega
              · by_cases h2 : l = snd
                · rw [h2, hW2snd, List.count_append]
                  omega
                · rw [hW2else l h1 h2]
            constructor
            · intro hcond
              obtain ⟨o1, o2, o3, o4⟩ := (hinv d).1 ⟨(htrans d hdc).mp hcond.1, hcond.2⟩
              rw [updN_apply, if_neg hdc]
              refine ⟨o1, ?_, ?_, ?_⟩
              · rw [hcnt]; exact o2
              · rw [hcnt]; exact o3
              · intro l hl1 hl2
                rw [hcnt]; exact o4 l hl1 hl2
            · intro hncond l
              rw [hcnt]
              refine (hinv d).2 (fun hAnd => hncond ⟨(htrans d hdc).mpr hAnd.1, hAnd.2⟩) l

theorem clause_nodup (db : ClauseStorage) (hnd : ∀ cl ∈ db.clauses, cl.Nodup)
    (c : Nat) : (db.clause c).Nodup := by
  unfold ClauseStorage.clause
  by_cases h : c < db.clauses.length
  · rw [List.getD_eq_getElem _ _ h]
    exact hnd _ (List.getElem_mem h)
  · rw [List.getD_eq_default _ _ (by omega)]
    exact List.nodup_nil

theorem watchinv_fold_add (db : ClauseStorage)
    (hnd : ∀ cl ∈ db.clauses, cl.Nodup) :
    ∀ (cs : List Nat) (p : Propagator) (added : List Nat),
      WatchInv db added p.watchlist p.watchedBy →
      (added ++ cs).Nodup →
      WatchInv db (added ++ cs)
        (cs.foldl (fun q c => q.addClause db c) p).watchlist
        (cs.foldl (fun q c => q.addClause db c) p).watchedBy := by
  intro cs
  induction cs with
  | nil =>
      intro p added hinv _
      simpa using hinv
  | cons c cs ih =>
      intro p added hinv hnodup
      have hre : added ++ c :: cs = (added ++ [c]) ++ cs := by simp
      have hc_notin : c ∉ added := by
        intro hmem
        exact (List.disjoint_of_nodup_append hnodup) hmem
          (List.mem_cons_self c cs)
      have hstep := watchinv_addClause db added p c hinv hc_notin
        (clause_nodup db hnd c)
      rw [List.foldl_cons, hre]
      exact ih _ _ hstep (by rw [← hre]; exact hnodup)

theorem watchinv_mk0 (db : ClauseStorage) (v0 : View)
    (hnd : ∀ cl ∈ db.clauses, cl.Nodup) :
    WatchInv db (db.activeClauses v0) (Propagator.mk0 db v0).watchlist
      (Propagator.mk0 db v0).watchedBy := by
  have hempty : WatchInv db []
      ((⟨fun _ => [], fun _ => (0, 0)⟩ : Propagator)).watchlist
      ((⟨fun _ => [], fun _ => (0, 0)⟩ : Propagator)).watchedBy := by
    intro d
    constructor
    · intro hcond
      exact absurd hcond.1 (List.not_mem_nil d)
    · intro _ l
      rfl
  have hnodup : (([] : List Nat) ++ db.activeClauses v0).Nodup := by
    rw [List.nil_append]
    exact (List.nodup_range _).filter _
  have hfold := watchinv_fold_add db hnd (db.activeClauses v0)
    ⟨fun _ => [], fun _ => (0, 0)⟩ [] hempty hnodup
  rw [List.nil_append] at hfold
  exact hfold

theorem applyPOps_inv (db : ClauseStorage)
    (hnd : ∀ cl ∈ db.clauses, cl.Nodup) :
    ∀ (ops : List POp) (s : PState) (added : List Nat),
      WatchInv db added s.prop.watchlist s.prop.watchedBy →
      (∀ c, s.view.isActive c = true → 2 ≤ (db.clause c).length → c ∈ added) →
      (added ++ addsOf ops).Nodup →
      WatchInv db (added ++ addsOf ops)
        (applyPOps db s ops).prop.watchlist (applyPOps db s ops).prop.watchedBy
      ∧ (∀ c, (applyPOps db s ops).view.isActive c = true →
          2 ≤ (db.clause c).length → c ∈ added ++ addsOf ops) := by
  intro ops
  induction ops with
  | nil =>
      intro s added hinv hview _
      constructor
      · simpa [addsOf] using hinv
      · intro c hc hl
        simp only [addsOf, List.append_nil]
        exact hview c hc hl
  | cons op rest ih =>
      intro s added hinv hview hnodup
      have hstep : applyPOps db s (op :: rest)
          = applyPOps db (applyPOp db s op) rest := by
        unfold applyPOps
        rw [List.foldl_cons]
      rw [hstep]
      cases op with
      | addOp c =>
          have hre : added ++ addsOf (POp.addOp c :: rest)
              = (added ++ [c]) ++ addsOf rest := by
            simp [addsOf]
          have hc_notin : c ∉ added := by
            intro hmem
            exact (List.disjoint_of_nodup_append hnodup) hmem
              (by simp [addsOf])
          have hinv2 := watchinv_addClause db added s.prop c hinv hc_notin
            (clause_nodup db hnd c)
          have hview2 : ∀ d, (applyPOp db s (POp.addOp c)).view.isActive d = true →
              2 ≤ (db.clause d).length → d ∈ added ++ [c] := by
            intro d hd hl
            by_cases hdc : d = c
            · exact List.mem_append.mpr (.inr (by simp [hdc]))
            · have hold : s.view.isActive d = true := by
                simp only [applyPOp, View.addC, View.isActive] at hd
                rw [updN_apply, if_neg hdc] at hd
                exact hd
              exact List.mem_append.mpr (.inl (hview d hold hl))
          rw [hre]
          exact ih (applyPOp db s (POp.addOp c)) (added ++ [c]) hinv2 hview2
            (by rw [← hre]; exact hnodup)
      | delOp c =>
          have hre : added ++ addsOf (POp.delOp c :: rest)
              = added ++ addsOf rest := by
            simp [addsOf]
          have hview2 : ∀ d, (applyPOp db s (POp.delOp c)).view.isActive d = true →
              2 ≤ (db.clause d).length → d ∈ added := by
            intro d hd hl
            by_cases hdc : d = c
            · exfalso
              simp only [applyPOp, View.del, View.isActive] at hd
              rw [updN_apply, if_pos hdc] at hd
              exact Bool.noConfusion hd
            · have hold : s.view.isActive d = true := by
                simp only [applyPOp, View.del, View.isActive] at hd
                rw [updN_apply, if_neg hdc] at hd
                exact hd
              exact hview d hold hl
          rw [hre]
          exact ih (applyPOp db s (POp.delOp c)) added hinv hview2
            (by rw [← hre]; exact hnodup)
      | propOp a fuel =>
          have hre : added ++ addsOf (POp.propOp a fuel :: rest)
              = added ++ addsOf rest := by
            simp [addsOf]
          have hinv2 : WatchInv db added
              (applyPOp db s (POp.propOp a fuel)).prop.watchlist
              (applyPOp db s (POp.propOp a fuel)).prop.watchedBy :=
            propOuter_watchinv db s.view a.rollbackPoint added fuel
              s.prop.watchlist s.prop.watchedBy a 0 hinv
          have hview2 : ∀ d, (applyPOp db s (POp.propOp a fuel)).view.isActive d = true →
              2 ≤ (db.clause d).length → d ∈ added := fun d hd hl => hview d hd hl
          rw [hre]
          exact ih (applyPOp db s (POp.propOp a fuel)) added hinv2 hview2
            (by rw [← hre]; exact hnodup)

/-- C3 amended: the exactly-once watcher invariant holds after every
sequence of propagator operations — initialization from the active set,
mid-checking `add_clause` (with activation), deletion, and `propagate` —
provided clauses are duplicate-free and no clause is added twice (in
particular no deleted clause is re-added; the counterexample shows
re-adding breaks the invariant, exactly as the source's own comment
warns): every active clause of length ≥ 2 occurs exactly once in the
watchlist of each of its two distinct watched literals and in no other
watchlist. -/
theorem C3_watcher_exactly_once_without_readd (db : ClauseStorage) (v0 : View)
    (ops : List POp)
    (hnd : ∀ cl ∈ db.clauses, cl.Nodup)
    (hfresh : (db.activeClauses v0 ++ addsOf ops).Nodup) :
    ∀ c, (applyPOps db (initPState db v0) ops).view.isActive c = true →
      2 ≤ (db.clause c).length →
      ((applyPOps db (initPState db v0) ops).prop.watchedBy c).1
          ≠ ((applyPOps db (initPState db v0) ops).prop.watchedBy c).2
      ∧ ((applyPOps db (initPState db v0) ops).prop.watchlist
          ((applyPOps db (initPState db v0) ops).prop.watchedBy c).1).count c = 1
      ∧ ((applyPOps db (initPState db v0) ops).prop.watchlist
          ((applyPOps db (initPState db v0) ops).prop.watchedBy c).2).count c = 1
      ∧ (∀ l, l ≠ ((applyPOps db (initPState db v0) ops).prop.watchedBy c).1 →
          l ≠ ((applyPOps db (initPState db v0) ops).prop.watchedBy c).2 →
          ((applyPOps db (initPState db v0) ops).prop.watchlist l).count c = 0) := by
  intro c hact hlen
  have hmk := watchinv_mk0 db v0 hnd
  have hview0 : ∀ d, (initPState db v0).view.isActive d = true →
      2 ≤ (db.clause d).length → d ∈ db.activeClauses v0 := by
    intro d hd hl
    have hdlt : d < db.numberOfClauses := by
      by_contra hge
      unfold ClauseStorage.numberOfClauses at hge
      unfold ClauseStorage.clause at hl
      rw [List.getD_eq_default _ _ (by omega)] at hl
      simp at hl
    exact List.mem_filter.mpr ⟨List.mem_range.mpr hdlt, hd⟩
  obtain ⟨hinv, hview⟩ := applyPOps_inv db hnd ops (initPState db v0)
    (db.activeClauses v0) hmk hview0 hfresh
  exact (hinv c).1 ⟨hview c hact hlen, hlen⟩

/-- Witness for C3 at a concrete input: the one-clause database with
clause 0 active and no further operations. -/
theorem C3_watcher_exactly_once_witness :
    ((applyPOps exDb3 (initPState exDb3 (ClauseStorage.partialView 1)) []).prop.watchlist
      ((applyPOps exDb3 (initPState exDb3 (ClauseStorage.partialView 1)) []).prop.watchedBy 0).1).count 0 = 1
    ∧ ((applyPOps exDb3 (initPState exDb3 (ClauseStorage.partialView 1)) []).prop.watchlist
      ((applyPOps exDb3 (initPState exDb3 (ClauseStorage.partialView 1)) []).prop.watchedBy 0).2).count 0 = 1 := by
  have h := C3_watcher_exactly_once_without_readd exDb3 (ClauseStorage.partialView 1) []
    (by decide) (by decide) 0 rfl (by decide)
  exact ⟨h.2.1, h.2.2.1⟩
